import Mathlib

/-!
Shallow embedding of the piece-to-slot storage engine of src/src/storage.cpp:
the file-spanning read/write walks of `storage::read` / `storage::write`, and
the mapping-table operations of `piece_manager::impl` (`check_pieces`,
`slot_for_piece`, `allocate_slots`, `read`, `write`).

Conventions.

* Bytes are `Nat`, buffers and file contents are `List Nat`.
* Machine integers of the source (`int`, `size_type`) are `Int` where sign
  matters (the mapping tables hold -1 / -2 markers) and `Nat` where the source
  only ever holds non-negative values.
* The embedding models release-mode semantics: `assert` bodies vanish, but any
  expression the source still evaluates (including the index expressions inside
  `check_invariant`) is kept, and an actually out-of-bounds vector access or
  iterator dereference is modelled as `none`.
* The SHA-1 collaborator and the question which slots obtain a fully assembled
  buffer during the resume scan are abstracted into boolean oracles (`hm`,
  `hasData`); the spec lists both the hasher and the file walk outcome as
  external inputs, and every theorem below quantifies over all oracles, or
  fixes a concrete one corresponding to a concrete disk image.
-/

/-- Modelled from the spec: the read-only `TorrentInfo` collaborator
(torrent_info is not among the sources under src/). `pieceLength` is the size
of every piece except the last, whose size is `lastPieceSize`, and
`totalSize` is the byte size of the whole payload. -/
structure TInfo where
  pieceLength : Nat
  numPieces : Nat
  lastPieceSize : Nat
  totalSize : Int
deriving Repr, DecidableEq

/-- Modelled from the spec: `piece_size(i)` is `piece_length` for `i < N-1`,
else `last_piece_size`. -/
def TInfo.pieceSize (ti : TInfo) (i : Nat) : Nat :=
  if i = ti.numPieces - 1 then ti.lastPieceSize else ti.pieceLength

/-- One payload file. `declared` is the size recorded in the torrent file list;
`content` holds the bytes currently on disk, which can be fewer than
`declared` when the file is missing or truncated. -/
structure FileEntry where
  declared : Nat
  content : List Nat
deriving Repr, DecidableEq

/-- Pad a byte list with zeros up to length `n` (no-op when already longer). -/
def padTo (c : List Nat) (n : Nat) : List Nat :=
  c ++ List.replicate (n - c.length) 0

/-- Overwrite `bs` into `c` starting at position `off`. The result grows
(zero-filling any gap) when the write reaches past the current end, exactly
like seeking past EOF and writing; writing nothing leaves `c` untouched. -/
def overlay (c : List Nat) (off : Nat) (bs : List Nat) : List Nat :=
  if bs = [] then c else (padTo c off).take off ++ bs ++ c.drop (off + bs.length)

/-- Byte of the virtual concatenated address space actually present on disk:
`none` when the position falls in a missing or truncated region. Positions are
mapped through the declared file sizes, exactly as the locate loops of
`storage::read` and `storage::write` walk them. -/
def diskByte : List FileEntry → Nat → Option Nat
  | [], _ => none
  | f :: fs, v => if v < f.declared then f.content[v]? else diskByte fs (v - f.declared)

/-- File-spanning write loop of `storage::write` (storage.cpp lines 263 to 340):
locate the file containing virtual position `start` by walking declared sizes,
then write `min(remaining, declared - file_offset)` bytes into each file,
moving to the next file at offset 0. Walking off the end of the file list is
the out-of-bounds iterator of the source, modelled as `none`. -/
def writeWalk : List FileEntry → Nat → List Nat → Option (List FileEntry)
  | [], _, _ => none
  | f :: fs, start, bs =>
    if start < f.declared then
      if bs.length ≤ f.declared - start then
        some ({ f with content := overlay f.content start bs } :: fs)
      else
        (writeWalk fs 0 (bs.drop (f.declared - start))).map
          (fun fs2 => { f with content := overlay f.content start (bs.take (f.declared - start)) } :: fs2)
    else (writeWalk fs (start - f.declared) bs).map (fun fs2 => f :: fs2)

/-- File-spanning read loop of `storage::read` (storage.cpp lines 187 to 252).
The planned byte count per file comes from the declared sizes; the bytes
actually obtained are clipped by what is on disk (`gcount`), but the buffer
cursor and the loop advance by the planned count, exactly as the source does
(the matching `assert(read_bytes == actual_read)` vanishes in release
builds, so a short read leaves a hole of stale buffer bytes). -/
def readWalk : List FileEntry → Nat → Nat → List Nat → Nat → Option (List Nat)
  | [], _, _, _, _ => none
  | f :: fs, start, left, buf, pos =>
    if start < f.declared then
      if left = 0 then some buf
      else
        let planned := min left (f.declared - start)
        let actual := min planned (f.content.length - start)
        let buf2 := overlay buf pos ((f.content.drop start).take actual)
        if left ≤ f.declared - start then some buf2
        else readWalk fs 0 (left - planned) buf2 (pos + planned)
    else readWalk fs (start - f.declared) left buf pos

/-- `storage::read` (storage.cpp lines 177 to 255): clamp the request to the
slot size, walk the files, and return the clamped count together with the
filled buffer. The returned count is computed before the loop and never
corrected by the actual bytes obtained. (The source computes the clamp in
signed arithmetic; the claims under verification presuppose
`offset ≤ piece_size(slot)`, where the `Nat` truncation below agrees.) -/
def storageRead (ti : TInfo) (files : List FileEntry) (buf : List Nat)
    (slot offset size : Nat) : Option (Nat × List Nat) :=
  let start := slot * ti.pieceLength + offset
  let left := min size (ti.pieceSize slot - offset)
  (readWalk files start left buf 0).map (fun b => (left, b))

/-- `storage::write` (storage.cpp lines 257 to 341): clamp to the slot size and
write `buf[0 .. left)` into the files. A missing destination file is created
and an existing one is opened read+write without truncation, so `writeWalk`
keeps all bytes outside the written span. -/
def storageWrite (ti : TInfo) (files : List FileEntry) (buf : List Nat)
    (slot offset size : Nat) : Option (List FileEntry) :=
  let start := slot * ti.pieceLength + offset
  let left := min size (ti.pieceSize slot - offset)
  writeWalk files start (buf.take left)

/-- Mapping state of `piece_manager::impl` (storage.cpp lines 349 to 410)
together with the payload files the embedded `storage` object acts on. -/
structure PMState where
  pieceToSlot : List Int
  slotToPiece : List Int
  freeSlots : List Nat
  unallocatedSlots : List Nat
  havePiece : List Bool
  bytesLeft : Int
  files : List FileEntry
deriving Repr, DecidableEq

/-- State right after the `piece_manager::impl` constructor (storage.cpp lines
412 to 419): no table has been resized yet, every vector is empty.
(`m_bytes_left` is uninitialized in the source and never read before
`check_pieces` assigns it; the embedding picks 0.) -/
def initState (files : List FileEntry) : PMState :=
  { pieceToSlot := [], slotToPiece := [], freeSlots := [], unallocatedSlots := [],
    havePiece := [], bytesLeft := 0, files := files }

/-- Release-mode effect of `check_invariant` (storage.cpp lines 855 to 876): the
loop still evaluates `m_piece_to_slot[i]` and `m_slot_to_piece[i]` for every
`i < num_pieces` even with assertions compiled out (only the `assert` bodies
vanish, the `if` conditions remain), so the call is an out-of-bounds access,
`none`, unless both tables have length at least `num_pieces`. -/
def checkInvariantG (ti : TInfo) (st : PMState) : Option Unit :=
  if ti.numPieces ≤ st.pieceToSlot.length ∧ ti.numPieces ≤ st.slotToPiece.length
  then some () else none

/-- One drained slot of the `allocate_slots` loop body (storage.cpp lines 813 to
836). `buf` is the shared `zeros` buffer created once per call: the relocation
branch reads the bytes of the source slot into it before the final write, so
whatever the buffer holds at that point is what gets written into slot
`pos`. -/
def allocStep (ti : TInfo) (st : PMState) (buf : List Nat) (pos : Nat) :
    Option (PMState × List Nat) := do
  let s0 ← st.pieceToSlot[pos]?
  let step1 ←
    if s0 = -1 then
      some (st, buf, pos)
    else if 0 ≤ s0 then do
      let rb ← storageRead ti st.files buf s0.toNat 0 (ti.pieceSize pos)
      some ({ st with slotToPiece := st.slotToPiece.set pos ((pos : Int)),
                      pieceToSlot := st.pieceToSlot.set pos ((pos : Int)) },
            rb.2, s0.toNat)
    else none
  match step1 with
  | (st1, buf1, newFree) => do
    let st2 := { st1 with slotToPiece := st1.slotToPiece.set newFree (-2),
                          freeSlots := st1.freeSlots ++ [newFree] }
    let files2 ← storageWrite ti st2.files buf1 pos 0 (ti.pieceSize pos)
    some ({ st2 with files := files2 }, buf1)

/-- Drain up to `n` slots from the pending list, threading the shared buffer;
the drained prefix is erased from `m_unallocated_slots` when the loop ends. -/
def allocLoop (ti : TInfo) : Nat → List Nat → PMState → List Nat → Option PMState
  | 0, rest, st, _ => some { st with unallocatedSlots := rest }
  | _ + 1, [], st, _ => some { st with unallocatedSlots := [] }
  | n + 1, pos :: rest, st, buf => do
    let sb ← allocStep ti st buf pos
    allocLoop ti n rest sb.1 sb.2

/-- `piece_manager::impl::allocate_slots` (storage.cpp lines 783 to 843) in
single-threaded semantics; the `m_allocating` monitor only serializes
concurrent callers. `check_invariant` runs on entry and on exit. -/
def allocateSlots (ti : TInfo) (st : PMState) (numSlots : Nat) : Option PMState := do
  let _ ← checkInvariantG ti st
  let st1 ← allocLoop ti numSlots st.unallocatedSlots st (List.replicate ti.pieceLength 0)
  let _ ← checkInvariantG ti st1
  some st1

/-- Slot selection of `slot_for_piece` (storage.cpp lines 700 to 731): when the
piece index itself sits in `free_slots` that very slot is taken (first
occurrence erased); otherwise the last element is taken. The last-slot special
case only reallocates when exactly one free slot is left, and then re-reads
`end() - 1`, which is the same last element whenever no reallocation
happened. Returns the chosen slot and the state with it erased from
`free_slots`; dereferencing `end() - 1` of an empty vector is `none`.
`chooseSlotLast` is the final take-the-last-element-and-erase-it step shared
by both paths of the special case. -/
def chooseSlotLast (st2 : PMState) : Option (PMState × Nat) := do
  let last2 ← st2.freeSlots.getLast?
  some ({ st2 with freeSlots := st2.freeSlots.dropLast }, last2)

/-- Body of the slot selection once `free_slots` is guaranteed non-empty
(storage.cpp lines 706 to 731). -/
def chooseSlotFrom (ti : TInfo) (st1 : PMState) (pieceIndex : Nat) :
    Option (PMState × Nat) :=
  if st1.freeSlots.contains pieceIndex then
    some ({ st1 with freeSlots := st1.freeSlots.erase pieceIndex }, pieceIndex)
  else
    st1.freeSlots.getLast?.bind (fun last =>
      if last = ti.numPieces - 1 ∧ pieceIndex ≠ ti.numPieces - 1 then
        (if st1.freeSlots.length = 1 then allocateSlots ti st1 5 else some st1).bind
          (fun st2 => chooseSlotLast st2)
      else
        some ({ st1 with freeSlots := st1.freeSlots.dropLast }, last))

def chooseSlot (ti : TInfo) (st : PMState) (pieceIndex : Nat) : Option (PMState × Nat) :=
  (if st.freeSlots.isEmpty then allocateSlots ti st 5 else some st).bind
    (fun st1 => chooseSlotFrom ti st1 pieceIndex)

/-- Collision handling of `slot_for_piece` (storage.cpp lines 738 to 776): when
another piece occupies slot `piece_index`, copy the bytes of slot
`piece_index` into the newly chosen slot (through a fresh zero buffer of
`piece_length` bytes), swap the two `slot_to_piece` entries and the two
`piece_to_slot` entries, and return `piece_index` instead of the chosen
slot. -/
def swapIfCollision (ti : TInfo) (st : PMState) (pieceIndex slotIndex : Nat) :
    Option (PMState × Nat) := do
  let q ← st.slotToPiece[pieceIndex]?
  if slotIndex ≠ pieceIndex ∧ 0 ≤ q then do
    let rb ← storageRead ti st.files (List.replicate ti.pieceLength 0)
      pieceIndex 0 ti.pieceLength
    let files2 ← storageWrite ti st.files rb.2 slotIndex 0 ti.pieceLength
    let b ← st.slotToPiece[slotIndex]?
    let c ← st.pieceToSlot[pieceIndex]?
    let d ← st.pieceToSlot[q.toNat]?
    some ({ st with files := files2,
                    slotToPiece := (st.slotToPiece.set pieceIndex b).set slotIndex q,
                    pieceToSlot := (st.pieceToSlot.set pieceIndex d).set q.toNat c },
          pieceIndex)
  else
    some (st, slotIndex)

/-- `piece_manager::impl::slot_for_piece` (storage.cpp lines 680 to 781) in
release-mode semantics: `check_invariant` still walks both tables; a
`piece_to_slot` entry other than -1 is returned as is (a negative entry other
than -1 would make the caller address a negative slot, modelled `none`). -/
def slotForPiece (ti : TInfo) (st : PMState) (pieceIndex : Nat) : Option (PMState × Nat) := do
  let _ ← checkInvariantG ti st
  let s ← st.pieceToSlot[pieceIndex]?
  if s ≠ -1 then
    if 0 ≤ s then some (st, s.toNat) else none
  else do
    let sc ← chooseSlot ti st pieceIndex
    let st2 := { sc.1 with
      slotToPiece := sc.1.slotToPiece.set sc.2 ((pieceIndex : Int)),
      pieceToSlot := sc.1.pieceToSlot.set pieceIndex ((sc.2 : Int)) }
    let sr ← swapIfCollision ti st2 pieceIndex sc.2
    let _ ← checkInvariantG ti sr.1
    some sr

/-- `piece_manager::impl::read` (storage.cpp lines 428 to 437): the precondition
`m_piece_to_slot[piece_index] >= 0` is an assertion; in its absence the
storage layer would address a negative slot, modelled `none`. The state is not
modified. -/
def pmRead (ti : TInfo) (st : PMState) (buf : List Nat) (pieceIndex offset size : Nat) :
    Option (Nat × List Nat) := do
  let s ← st.pieceToSlot[pieceIndex]?
  if 0 ≤ s then storageRead ti st.files buf s.toNat offset size else none

/-- `piece_manager::impl::write` (storage.cpp lines 448 to 456): resolve the
slot with `slot_for_piece`, then delegate to the storage layer. The chosen
slot is returned alongside the state to let theorems speak about it. -/
def pmWrite (ti : TInfo) (st : PMState) (buf : List Nat) (pieceIndex offset size : Nat) :
    Option (PMState × Nat) := do
  let sr ← slotForPiece ti st pieceIndex
  let files2 ← storageWrite ti sr.1.files buf sr.2 offset size
  some ({ sr.1 with files := files2 }, sr.2)

/-- Candidate scan of `check_pieces` (storage.cpp lines 611 to 622): every piece
index from `current_slot` upwards is tried, skipping pieces already marked
present except `current_slot` itself; `hm i` abstracts the SHA-1 comparison
`digest[i == N-1]->get() == hash_for_piece(i)` of the assembled buffer against
the expected hash of piece `i`. The loop has no break, so a later match
overwrites an earlier one in `found_piece`. -/
def matchLoop (hm : Nat → Bool) (hv : List Bool) (cur n : Nat) : Option Nat :=
  (List.range' cur (n - cur)).foldl
    (fun acc i => if hv.getD i false ∧ i ≠ cur then acc
                  else if hm i then some i else acc) none

/-- Classification of one fully assembled slot buffer in `check_pieces`
(storage.cpp lines 604 to 651): on a match the piece is recorded at
`current_slot`, demoting the slot that held it before (if any) to free;
`bytes_left` shrinks only on the first discovery. Without a match the slot
itself becomes free. -/
def checkSlotStep (ti : TInfo) (st : PMState) (cur : Nat) (hm : Nat → Bool) :
    Option PMState :=
  match matchLoop hm st.havePiece cur ti.numPieces with
  | some fp =>
    if st.havePiece.getD fp false then do
      let old ← st.pieceToSlot[fp]?
      if 0 ≤ old then
        some { st with
          slotToPiece := (st.slotToPiece.set old.toNat (-2)).set cur ((fp : Int)),
          freeSlots := st.freeSlots ++ [old.toNat],
          pieceToSlot := st.pieceToSlot.set fp ((cur : Int)),
          havePiece := st.havePiece.set fp true }
      else none
    else
      some { st with
        bytesLeft := st.bytesLeft - (ti.pieceSize fp : Int),
        slotToPiece := st.slotToPiece.set cur ((fp : Int)),
        pieceToSlot := st.pieceToSlot.set fp ((cur : Int)),
        havePiece := st.havePiece.set fp true }
  | none =>
    some { st with slotToPiece := st.slotToPiece.set cur (-2),
                   freeSlots := st.freeSlots ++ [cur] }

/-- One slot of the resume scan: a slot whose full buffer was assembled from
bytes on disk is hash-classified; a slot lying wholly inside a missing file
tail is pushed onto `unallocated_slots` (storage.cpp lines 569 to 587).
`hasData cur` abstracts the file-walk outcome, namely whether the scan
assembled a complete buffer for slot `cur`. -/
def checkStep (ti : TInfo) (hasData : Nat → Bool) (hm : Nat → Nat → Bool)
    (st : PMState) (cur : Nat) : Option PMState :=
  if hasData cur then checkSlotStep ti st cur (hm cur)
  else some { st with unallocatedSlots := st.unallocatedSlots ++ [cur] }

/-- `piece_manager::impl::check_pieces` (storage.cpp lines 467 to 670)
processing the first `k` slots; cooperative cancellation makes the source
return after any prefix of the scan, and `k = N` is the completed scan. The
tables start freshly resized to `N` entries of -1, `bytes_left` starts at
`total_size`, and the caller-supplied `pieces` vector starts all false. -/
def checkPiecesUpTo (ti : TInfo) (files : List FileEntry) (hasData : Nat → Bool)
    (hm : Nat → Nat → Bool) (k : Nat) : Option PMState :=
  ((List.range ti.numPieces).take k).foldlM (checkStep ti hasData hm)
    { pieceToSlot := List.replicate ti.numPieces (-1),
      slotToPiece := List.replicate ti.numPieces (-1),
      freeSlots := [], unallocatedSlots := [],
      havePiece := List.replicate ti.numPieces false,
      bytesLeft := ti.totalSize, files := files }

/-- Public mutating operations available after the resume check (`read` mutates
nothing and is covered by `pmRead` directly). -/
inductive POp where
  | write (buf : List Nat) (pieceIndex offset size : Nat)
  | alloc (numSlots : Nat)
deriving Repr

/-- Apply one public operation to the state. -/
def applyOp (ti : TInfo) (st : PMState) : POp → Option PMState
  | .write buf p off sz => (pmWrite ti st buf p off sz).map Prod.fst
  | .alloc n => allocateSlots ti st n

/-- Apply a sequence of public operations. -/
def applyOps (ti : TInfo) (st : PMState) (ops : List POp) : Option PMState :=
  ops.foldlM (applyOp ti) st

/-! ### Generic list helpers -/

/-- Total declared size of a file list. -/
def totalDeclared (files : List FileEntry) : Nat :=
  (files.map FileEntry.declared).sum

/-- Success of a read walk as a function of the declared layout only. -/
def walkOk : List Nat → Nat → Nat → Bool
  | [], _, _ => false
  | d :: ds, start, left =>
    if start < d then
      if left = 0 then true
      else if left ≤ d - start then true
      else walkOk ds 0 (left - min left (d - start))
    else walkOk ds (start - d) left

/-- Value of `m_piece_to_slot[p]` (out of range reads a junk -1, only used
under a length hypothesis). -/
def PMState.ps (st : PMState) (p : Nat) : Int := st.pieceToSlot.getD p (-1)

/-- Value of `m_slot_to_piece[s]`. -/
def PMState.sp (st : PMState) (s : Nat) : Int := st.slotToPiece.getD s (-1)

/-- Table part of the data-structure invariant: both tables have length `N`,
the two directions of the piece/slot mapping agree, and `free_slots` lists
only slots marked -2, without duplicates. -/
def PMInvT (N : Nat) (st : PMState) : Prop :=
  st.pieceToSlot.length = N ∧
  st.slotToPiece.length = N ∧
  (∀ p, p < N → 0 ≤ st.ps p → (st.ps p).toNat < N ∧ st.sp (st.ps p).toNat = (p : Int)) ∧
  (∀ s, s < N → 0 ≤ st.sp s → (st.sp s).toNat < N ∧ st.ps (st.sp s).toNat = (s : Int)) ∧
  (∀ s, s ∈ st.freeSlots → s < N ∧ st.sp s = -2) ∧
  st.freeSlots.Nodup

/-- Full invariant: the table part plus the pending `unallocated_slots` list,
whose members are exactly marked -1 and unduplicated. -/
def PMInv (N : Nat) (st : PMState) : Prop :=
  PMInvT N st ∧
  (∀ s, s ∈ st.unallocatedSlots → s < N ∧ st.sp s = -1) ∧
  st.unallocatedSlots.Nodup

/-- Inverse consistency, the property of claim C2: a placed piece is the piece
its slot points back to. -/
def InverseConsistent (st : PMState) : Prop :=
  ∀ p, p < st.pieceToSlot.length → 0 ≤ st.ps p →
    st.sp (st.ps p).toNat = (p : Int)

/-- Specification value of `m_bytes_left`: total size of the pieces not yet
marked present. -/
def bytesLeftSpec (ti : TInfo) (N : Nat) (hv : List Bool) : Int :=
  ∑ p in Finset.range N, if hv.getD p false then 0 else (ti.pieceSize p : Int)

/-- Invariant maintained slot by slot during the resume scan: the structural
invariant, bookkeeping that everything recorded so far lies strictly below the
scan position, the have/table correspondence, and the `bytes_left` account. -/
def CheckInv (ti : TInfo) (N cur : Nat) (st : PMState) : Prop :=
  PMInv N st ∧
  st.havePiece.length = N ∧
  (∀ s, s ∈ st.freeSlots → s < cur) ∧
  (∀ s, s ∈ st.unallocatedSlots → s < cur) ∧
  (∀ p, p < N → st.havePiece.getD p false = true →
    0 ≤ st.ps p ∧ (st.ps p).toNat < cur) ∧
  (∀ p, p < N → st.havePiece.getD p false = false → st.ps p = -1) ∧
  (∀ s, cur ≤ s → s < N → st.sp s = -1) ∧
  st.bytesLeft = bytesLeftSpec ti N st.havePiece

/-- Concrete torrent for the counter-scenarios: three pieces of length 4, a
short last piece of 2 bytes, 10 bytes in total. -/
def tiSmall : TInfo := ⟨4, 3, 2, 10⟩

/-- Concrete disk image: one file of the full declared 10 bytes with pairwise
distinct contents. -/
def filesSmall : List FileEntry := [⟨10, [10, 11, 12, 13, 14, 15, 16, 17, 18, 19]⟩]

/-- Concrete one-piece state right before a first-time hash match. -/
def stC7 : PMState := ⟨[-1], [-1], [], [], [false], 1, []⟩

/-- `stC7` after `checkSlotStep` classifies slot 0 as piece 0. -/
def stC7x : PMState := ⟨[0], [0], [], [], [true], 0, []⟩

/-- One-piece state produced by a resume scan that found piece 0 in slot 0. -/
def stWF : PMState := ⟨[0], [0], [], [], [true], 0, []⟩

/-- Concrete two-piece torrent for the relocation scenario. -/
def tiC6 : TInfo := ⟨2, 2, 2, 4⟩

/-- Reading a `set` cell through `getD`. -/
theorem getD_set {α : Type} (l : List α) (i j : Nat) (a d : α) :
    (l.set i a).getD j d = if i = j ∧ i < l.length then a else l.getD j d := by
  rw [List.getD_eq_getElem?_getD, List.getD_eq_getElem?_getD, List.getElem?_set]
  by_cases hij : i = j
  · subst hij
    by_cases hlen : i < l.length
    · simp [hlen]
    · rw [List.getElem?_eq_none (by omega)]
      simp [hlen]
  · simp [hij]

/-- Length of a padded list. -/
theorem padTo_length (xs : List Nat) (n : Nat) : (padTo xs n).length = max xs.length n := by
  simp [padTo]; omega

/-- Padding is a no-op when the target length is already reached. -/
theorem padTo_of_le (xs : List Nat) (n : Nat) (h : n ≤ xs.length) : padTo xs n = xs := by
  simp [padTo, Nat.sub_eq_zero_of_le h]

/-- Cell of a padded list. -/
theorem padTo_getElem? (xs : List Nat) (n q : Nat) :
    (padTo xs n)[q]? = if q < xs.length then xs[q]? else if q < n then some 0 else none := by
  rw [padTo, List.getElem?_append]
  by_cases h1 : q < xs.length
  · simp [h1]
  · rw [if_neg h1, if_neg h1]
    by_cases h4 : q < n
    · rw [if_pos h4, List.getElem?_replicate, if_pos (show q - xs.length < n - xs.length by omega)]
    · rw [if_neg h4, List.getElem?_eq_none]
      simp
      omega

/-- Writing nothing changes nothing. -/
theorem overlay_nil (xs : List Nat) (off : Nat) : overlay xs off [] = xs := by
  simp [overlay]

/-- Cell-level description of `overlay`. -/
theorem overlay_getElem? (xs : List Nat) (off : Nat) (bs : List Nat) (q : Nat) :
    (overlay xs off bs)[q]? =
      if bs = [] then xs[q]?
      else if q < off then (padTo xs off)[q]?
      else if q < off + bs.length then bs[q - off]?
      else xs[q]? := by
  by_cases hbs : bs = []
  · simp [overlay, hbs]
  · rw [overlay, if_neg hbs, if_neg hbs]
    have hA : ((padTo xs off).take off).length = off := by
      simp [padTo_length]
    rw [List.getElem?_append, List.length_append, hA]
    by_cases h2 : q < off + bs.length
    · rw [if_pos h2, List.getElem?_append, hA]
      by_cases h1 : q < off
      · rw [if_pos h1, if_pos h1, List.getElem?_take, if_pos h1]
      · rw [if_neg h1, if_neg h1, if_pos h2]
    · rw [if_neg h2, if_neg (show ¬ q < off by omega), if_neg h2, List.getElem?_drop]
      congr 1
      omega

/-- Length of an `overlay`. -/
theorem overlay_length (xs : List Nat) (off : Nat) (bs : List Nat) (h : bs ≠ []) :
    (overlay xs off bs).length = max (off + bs.length) xs.length := by
  rw [overlay, if_neg h]
  simp [padTo_length]
  omega

/-- The overlaid span reads back as the written bytes. -/
theorem overlay_slice (xs : List Nat) (off : Nat) (bs : List Nat) :
    ((overlay xs off bs).drop off).take bs.length = bs := by
  by_cases hbs : bs = []
  · simp [hbs]
  · apply List.ext_getElem?
    intro q
    rw [List.getElem?_take, List.getElem?_drop, overlay_getElem?]
    by_cases h1 : q < bs.length
    · rw [if_pos h1, if_neg hbs, if_neg (show ¬ off + q < off by omega),
        if_pos (show off + q < off + bs.length by omega)]
      congr 1
      omega
    · rw [if_neg h1, eq_comm, List.getElem?_eq_none (by omega)]

/-- Two adjacent overlays collapse into one. -/
theorem overlay_overlay (buf : List Nat) (pos : Nat) (c1 c2 : List Nat) :
    overlay (overlay buf pos c1) (pos + c1.length) c2 = overlay buf pos (c1 ++ c2) := by
  by_cases hc1 : c1 = []
  · simp [hc1, overlay_nil]
  · by_cases hc2 : c2 = []
    · simp [hc2, overlay_nil]
    · have hXlen : (overlay buf pos c1).length = max (pos + c1.length) buf.length :=
        overlay_length buf pos c1 hc1
      apply List.ext_getElem?
      intro q
      rw [overlay_getElem? (overlay buf pos c1), overlay_getElem? buf pos (c1 ++ c2),
        if_neg hc2, if_neg (show ¬ (c1 ++ c2 = []) by simp [hc1]), List.length_append]
      by_cases h1 : q < pos
      · rw [if_pos (show q < pos + c1.length by omega), padTo_getElem?,
          if_pos (show q < (overlay buf pos c1).length by omega),
          if_pos h1, overlay_getElem?, if_neg hc1, if_pos h1]
      · by_cases h2 : q < pos + c1.length
        · rw [if_pos h2, padTo_getElem?,
            if_pos (show q < (overlay buf pos c1).length by omega),
            overlay_getElem?, if_neg hc1, if_neg h1, if_pos h2, if_neg h1,
            if_pos (show q < pos + (c1.length + c2.length) by omega),
            List.getElem?_append, if_pos (show q - pos < c1.length by omega)]
        · by_cases h3 : q < pos + c1.length + c2.length
          · rw [if_neg h2, if_pos (show q < pos + c1.length + c2.length by omega),
              if_neg h1, if_pos (show q < pos + (c1.length + c2.length) by omega),
              List.getElem?_append, if_neg (show ¬ q - pos < c1.length by omega)]
            congr 1
            omega
          · rw [if_neg h2, if_neg (show ¬ q < pos + c1.length + c2.length by omega),
              if_neg h1, if_neg (show ¬ q < pos + (c1.length + c2.length) by omega),
              overlay_getElem?, if_neg hc1, if_neg h1, if_neg h2]

/-! ### Properties of the file walks -/

/-- A byte found on disk lies inside the declared address space. -/
theorem diskByte_lt_totalDeclared (files : List FileEntry) (v : Nat) (b : Nat)
    (h : diskByte files v = some b) : v < totalDeclared files := by
  induction files generalizing v with
  | nil => simp [diskByte] at h
  | cons f fs ih =>
    rw [diskByte] at h
    by_cases h1 : v < f.declared
    · simp [totalDeclared]
      omega
    · rw [if_neg h1] at h
      have := ih (v - f.declared) h
      simp [totalDeclared] at this ⊢
      omega

/-- A successful write walk does not change the declared file layout. -/
theorem writeWalk_declared (files : List FileEntry) (start : Nat) (bs : List Nat)
    (files2 : List FileEntry) (h : writeWalk files start bs = some files2) :
    files2.map FileEntry.declared = files.map FileEntry.declared := by
  induction files generalizing start bs files2 with
  | nil => simp [writeWalk] at h
  | cons f fs ih =>
    rw [writeWalk] at h
    by_cases h1 : start < f.declared
    · rw [if_pos h1] at h
      by_cases h2 : bs.length ≤ f.declared - start
      · rw [if_pos h2] at h
        obtain rfl := (Option.some_inj.mp h).symm
        simp
      · rw [if_neg h2] at h
        obtain ⟨fs2, hfs2, rfl⟩ := Option.map_eq_some'.mp h
        simp [ih 0 _ fs2 hfs2]
    · rw [if_neg h1] at h
      obtain ⟨fs2, hfs2, rfl⟩ := Option.map_eq_some'.mp h
      simp [ih (start - f.declared) bs fs2 hfs2]

/-- Content lemma of the write walk: every position inside the written span
holds the corresponding buffer byte afterwards. -/
theorem writeWalk_content (files : List FileEntry) (start : Nat) (bs : List Nat)
    (files2 : List FileEntry) (h : writeWalk files start bs = some files2) :
    ∀ j, j < bs.length → diskByte files2 (start + j) = bs[j]? := by
  induction files generalizing start bs files2 with
  | nil => simp [writeWalk] at h
  | cons f fs ih =>
    intro j hj
    rw [writeWalk] at h
    by_cases h1 : start < f.declared
    · rw [if_pos h1] at h
      by_cases h2 : bs.length ≤ f.declared - start
      · rw [if_pos h2] at h
        obtain rfl := (Option.some_inj.mp h).symm
        rw [diskByte, if_pos (show start + j < f.declared by omega)]
        have hbs : bs ≠ [] := by
          intro hc
          rw [hc] at hj
          simp at hj
        rw [overlay_getElem?, if_neg hbs, if_neg (show ¬ start + j < start by omega),
          if_pos (show start + j < start + bs.length by omega)]
        congr 1
        omega
      · rw [if_neg h2] at h
        obtain ⟨fs2, hfs2, rfl⟩ := Option.map_eq_some'.mp h
        by_cases h3 : j < f.declared - start
        · rw [diskByte, if_pos (show start + j < f.declared by omega)]
          have htk : (bs.take (f.declared - start)) ≠ [] := by
            have hlen : (bs.take (f.declared - start)).length = f.declared - start := by
              simp
              omega
            intro hc
            rw [hc] at hlen
            simp at hlen
            omega
          rw [overlay_getElem?, if_neg htk, if_neg (show ¬ start + j < start by omega),
            if_pos (show start + j < start + (List.take (f.declared - start) bs).length by
              simp; omega),
            List.getElem?_take, Nat.add_sub_cancel_left, if_pos h3]
        · rw [diskByte, if_neg (show ¬ start + j < f.declared by omega)]
          have hrec := ih 0 (bs.drop (f.declared - start)) fs2 hfs2
            (j - (f.declared - start)) (by simp; omega)
          rw [show start + j - f.declared = 0 + (j - (f.declared - start)) by omega, hrec,
            List.getElem?_drop]
          congr 1
          omega
    · rw [if_neg h1] at h
      obtain ⟨fs2, hfs2, rfl⟩ := Option.map_eq_some'.mp h
      rw [diskByte, if_neg (show ¬ start + j < f.declared by omega)]
      have hrec := ih (start - f.declared) bs fs2 hfs2 j hj
      rw [show start + j - f.declared = start - f.declared + j by omega, hrec]

/-- Frame lemma of the write walk: when every file is present at its declared
size, a successful write changes no byte outside the written span. -/
theorem writeWalk_frame (files : List FileEntry) (start : Nat) (bs : List Nat)
    (files2 : List FileEntry) (h : writeWalk files start bs = some files2)
    (hcomp : ∀ f ∈ files, f.content.length = f.declared) :
    ∀ v, (v < start ∨ start + bs.length ≤ v) → diskByte files2 v = diskByte files v := by
  induction files generalizing start bs files2 with
  | nil => simp [writeWalk] at h
  | cons f fs ih =>
    intro v hv
    have hflen : f.content.length = f.declared := hcomp f (by simp)
    rw [writeWalk] at h
    by_cases h1 : start < f.declared
    · rw [if_pos h1] at h
      by_cases h2 : bs.length ≤ f.declared - start
      · rw [if_pos h2] at h
        obtain rfl := (Option.some_inj.mp h).symm
        rw [diskByte, diskByte]
        by_cases h3 : v < f.declared
        · rw [if_pos h3, if_pos h3, overlay_getElem?]
          by_cases hbs : bs = []
          · rw [if_pos hbs]
          · rw [if_neg hbs]
            rcases hv with hv | hv
            · rw [if_pos hv, padTo_getElem?, if_pos (show v < f.content.length by omega)]
            · rw [if_neg (show ¬ v < start by omega),
                if_neg (show ¬ v < start + bs.length by omega)]
        · rw [if_neg h3, if_neg h3]
      · rw [if_neg h2] at h
        obtain ⟨fs2, hfs2, rfl⟩ := Option.map_eq_some'.mp h
        rw [diskByte, diskByte]
        by_cases h3 : v < f.declared
        · rw [if_pos h3, if_pos h3]
          have htk : (bs.take (f.declared - start)) ≠ [] := by
            have hlen : (bs.take (f.declared - start)).length = f.declared - start := by
              simp
              omega
            intro hc
            rw [hc] at hlen
            simp at hlen
            omega
          rw [overlay_getElem?, if_neg htk]
          rcases hv with hv | hv
          · rw [if_pos hv, padTo_getElem?, if_pos (show v < f.content.length by omega)]
          · rw [if_neg (show ¬ v < start by omega),
              if_neg (show ¬ v < start + (List.take (f.declared - start) bs).length by
                simp; omega)]
        · rw [if_neg h3, if_neg h3]
          exact ih 0 (bs.drop (f.declared - start)) fs2 hfs2
            (fun g hg => hcomp g (by simp [hg])) (v - f.declared) (by simp; omega)
    · rw [if_neg h1] at h
      obtain ⟨fs2, hfs2, rfl⟩ := Option.map_eq_some'.mp h
      rw [diskByte, diskByte]
      by_cases h3 : v < f.declared
      · rw [if_pos h3, if_pos h3]
      · rw [if_neg h3, if_neg h3]
        exact ih (start - f.declared) bs fs2 hfs2
          (fun g hg => hcomp g (by simp [hg])) (v - f.declared) (by omega)

/-- Content lemma of the read walk: when the whole requested span is present on
disk, the walk succeeds and overlays exactly those bytes into the buffer at
the cursor position. -/
theorem readWalk_content (files : List FileEntry) (start left : Nat) (buf : List Nat)
    (pos : Nat) (w : List Nat) (hw : w.length = left)
    (hloc : start < totalDeclared files)
    (hbytes : ∀ j, j < left → diskByte files (start + j) = w[j]?) :
    readWalk files start left buf pos = some (overlay buf pos w) := by
  induction files generalizing start left buf pos w with
  | nil => simp [totalDeclared] at hloc
  | cons f fs ih =>
    simp only [readWalk]
    by_cases h1 : start < f.declared
    · rw [if_pos h1]
      by_cases h0 : left = 0
      · rw [if_pos h0]
        have hwnil : w = [] := List.eq_nil_of_length_eq_zero (by omega)
        rw [hwnil, overlay_nil]
      · rw [if_neg h0]
        have hk1 : 1 ≤ min left (f.declared - start) := by omega
        have hb0 := hbytes (min left (f.declared - start) - 1) (by omega)
        rw [diskByte, if_pos (show start + (min left (f.declared - start) - 1) < f.declared
          by omega)] at hb0
        have hwsome : w[min left (f.declared - start) - 1]? =
            some (w.get ⟨min left (f.declared - start) - 1, by omega⟩) :=
          List.getElem?_eq_getElem (by omega)
        rw [hwsome] at hb0
        obtain ⟨hlt, -⟩ := List.getElem?_eq_some.mp hb0
        have hcontlen : start + min left (f.declared - start) ≤ f.content.length := by
          omega
        have hactual : min (min left (f.declared - start))
            (f.content.length - start) = min left (f.declared - start) := by
          omega
        have hchunk : (f.content.drop start).take
            (min (min left (f.declared - start)) (f.content.length - start)) =
            w.take (min left (f.declared - start)) := by
          rw [hactual]
          apply List.ext_getElem?
          intro q
          rw [List.getElem?_take, List.getElem?_take, List.getElem?_drop]
          by_cases hq : q < min left (f.declared - start)
          · rw [if_pos hq, if_pos hq]
            have := hbytes q (by omega)
            rw [diskByte, if_pos (show start + q < f.declared by omega)] at this
            exact this
          · rw [if_neg hq, if_neg hq]
        by_cases hfin : left ≤ f.declared - start
        · rw [if_pos hfin]
          have hkl : min left (f.declared - start) = left := by omega
          rw [hchunk, hkl, ← hw, List.take_length]
        · rw [if_neg hfin]
          have hkl : min left (f.declared - start) = f.declared - start := by omega
          have hloc2 : (0 : Nat) < totalDeclared fs := by
            have hb := hbytes (min left (f.declared - start)) (by omega)
            rw [diskByte, if_neg (show ¬ start + min left (f.declared - start) < f.declared
              by omega)] at hb
            have hwsome2 : w[min left (f.declared - start)]? =
                some (w.get ⟨min left (f.declared - start), by omega⟩) :=
              List.getElem?_eq_getElem (by omega)
            rw [hwsome2] at hb
            have := diskByte_lt_totalDeclared fs _ _ hb
            omega
          have hbytes2 : ∀ j, j < left - min left (f.declared - start) →
              diskByte fs (0 + j) = (w.drop (min left (f.declared - start)))[j]? := by
            intro j hjlt
            have hb := hbytes (min left (f.declared - start) + j) (by omega)
            rw [diskByte, if_neg (show ¬ start + (min left (f.declared - start) + j) <
              f.declared by omega)] at hb
            rw [show start + (min left (f.declared - start) + j) - f.declared =
              0 + j by omega] at hb
            rw [hb, List.getElem?_drop]
          have hrec := ih 0 (left - min left (f.declared - start))
            (overlay buf pos (w.take (min left (f.declared - start))))
            (pos + min left (f.declared - start))
            (w.drop (min left (f.declared - start)))
            (by simp; omega) hloc2 hbytes2
          rw [hchunk, hrec]
          have hlen : (w.take (min left (f.declared - start))).length =
              min left (f.declared - start) := by
            simp
            omega
          rw [show pos + min left (f.declared - start) =
            pos + (w.take (min left (f.declared - start))).length by rw [hlen],
            overlay_overlay, List.take_append_drop]
    · rw [if_neg h1]
      have hloc2 : start - f.declared < totalDeclared fs := by
        simp [totalDeclared] at hloc ⊢
        omega
      have hbytes2 : ∀ j, j < left → diskByte fs (start - f.declared + j) = w[j]? := by
        intro j hjlt
        have hb := hbytes j hjlt
        rw [diskByte, if_neg (show ¬ start + j < f.declared by omega)] at hb
        rw [show start - f.declared + j = start + j - f.declared by omega]
        exact hb
      exact ih (start - f.declared) left buf pos w hw hloc2 hbytes2

/-- Whether the read walk succeeds depends only on the declared file sizes,
never on the bytes present or on the buffer: missing or truncated content
shrinks `gcount` but not the control flow. -/
theorem readWalk_isSome (files : List FileEntry) (start left : Nat)
    (buf : List Nat) (pos : Nat) :
    (readWalk files start left buf pos).isSome =
      walkOk (files.map FileEntry.declared) start left := by
  induction files generalizing start left buf pos with
  | nil => simp [readWalk, walkOk]
  | cons f fs ih =>
    simp only [readWalk, walkOk, List.map_cons]
    by_cases h1 : start < f.declared
    · rw [if_pos h1, if_pos h1]
      by_cases h0 : left = 0
      · simp [h0]
      · rw [if_neg h0, if_neg h0]
        by_cases hfin : left ≤ f.declared - start
        · simp [hfin]
        · rw [if_neg hfin, if_neg hfin, ih]
    · rw [if_neg h1, if_neg h1, ih]

/-! ### Mapping-table invariants -/

/-- In-range cells read through `ps`. -/
theorem ps_getElem? (st : PMState) (p : Nat) (h : p < st.pieceToSlot.length) :
    st.pieceToSlot[p]? = some (st.ps p) := by
  rw [List.getElem?_eq_getElem h, PMState.ps, List.getD_eq_getElem _ _ h]

/-- In-range cells read through `sp`. -/
theorem sp_getElem? (st : PMState) (s : Nat) (h : s < st.slotToPiece.length) :
    st.slotToPiece[s]? = some (st.sp s) := by
  rw [List.getElem?_eq_getElem h, PMState.sp, List.getD_eq_getElem _ _ h]

/-- The invariant gives inverse consistency. -/
theorem inv_inverseConsistent (N : Nat) (st : PMState) (h : PMInv N st) :
    InverseConsistent st := by
  obtain ⟨⟨h1, h2, h3, h4, h5, h6⟩, h7, h8⟩ := h
  intro p hp hps
  exact (h3 p (by omega) hps).2

/-- Effect of one `allocate_slots` loop iteration: the table invariant is kept,
the pending list field is untouched, slots other than `pos` that were
unallocated stay so, and neither `have_piece` nor `bytes_left` moves. -/
theorem allocStep_inv (ti : TInfo) (N : Nat) (st : PMState) (buf : List Nat) (pos : Nat)
    (hInv : PMInvT N st) (hpos : pos < N) (hsp : st.sp pos = -1)
    (st2 : PMState) (buf2 : List Nat)
    (h : allocStep ti st buf pos = some (st2, buf2)) :
    PMInvT N st2 ∧ st2.unallocatedSlots = st.unallocatedSlots ∧
    (∀ u, u ≠ pos → st.sp u = -1 → st2.sp u = -1) ∧
    (∀ p, st.ps p = -1 → st2.ps p = -1) ∧
    st2.havePiece = st.havePiece ∧ st2.bytesLeft = st.bytesLeft := by
  obtain ⟨hl1, hl2, hdir1, hdir2, hfree, hnd⟩ := hInv
  rw [allocStep, ps_getElem? st pos (by omega)] at h
  simp only [Option.bind_eq_bind, Option.some_bind, PMState.ps, PMState.sp] at h
  simp only [PMState.sp, PMState.ps] at hsp hfree hdir1 hdir2
  by_cases hps : st.pieceToSlot.getD pos (-1) = -1
  · rw [if_pos hps] at h
    cases hw : storageWrite ti st.files buf pos 0 (ti.pieceSize pos) with
    | none => rw [hw] at h; simp at h
    | some files2 =>
      rw [hw] at h
      simp only [Option.some_bind, Option.some_inj, Prod.mk.injEq] at h
      obtain ⟨h1, h2⟩ := h
      subst h1
      subst h2
      refine ⟨?_, rfl, ?_, fun p hp => hp, rfl, rfl⟩
      · refine ⟨hl1, by simpa using hl2, ?_, ?_, ?_, ?_⟩
        · intro p hp hq
          simp only [PMState.ps, PMState.sp] at hq ⊢
          obtain ⟨hb, hc⟩ := hdir1 p hp hq
          refine ⟨hb, ?_⟩
          rw [getD_set, if_neg]
          · exact hc
          · rintro ⟨he, -⟩
            rw [← he] at hc
            omega
        · intro s hs hq
          simp only [PMState.ps, PMState.sp] at hq ⊢
          rw [getD_set] at hq ⊢
          by_cases hse : pos = s ∧ pos < st.slotToPiece.length
          · rw [if_pos hse] at hq
            omega
          · rw [if_neg hse] at hq ⊢
            exact hdir2 s hs hq
        · intro s hmem
          have hmem2 : s ∈ st.freeSlots ++ [pos] := hmem
          simp only [PMState.sp]
          rcases List.mem_append.mp hmem2 with hm | hm
          · obtain ⟨hb, hc⟩ := hfree s hm
            refine ⟨hb, ?_⟩
            rw [getD_set, if_neg]
            · exact hc
            · rintro ⟨he, -⟩
              rw [← he] at hc
              omega
          · have hspos : s = pos := by simpa using hm
            subst hspos
            exact ⟨hpos, by rw [getD_set, if_pos ⟨rfl, by omega⟩]⟩
        · show (st.freeSlots ++ [pos]).Nodup
          rw [List.nodup_append]
          refine ⟨hnd, List.nodup_singleton pos, ?_⟩
          intro a ha hb
          have hab : a = pos := by simpa using hb
          have h2 := (hfree a ha).2
          rw [hab] at h2
          omega
      · intro u hu hsu
        simp only [PMState.sp] at hsu ⊢
        rw [getD_set, if_neg]
        · exact hsu
        · rintro ⟨he, -⟩
          exact hu he.symm
  · rw [if_neg hps] at h
    have hq : 0 ≤ st.pieceToSlot.getD pos (-1) := by
      by_contra hq2
      rw [if_neg hq2] at h
      simp at h
    rw [if_pos hq] at h
    obtain ⟨hs0N, hsps0⟩ := hdir1 pos hpos hq
    have hs0ne : (st.pieceToSlot.getD pos (-1)).toNat ≠ pos := by
      intro he
      rw [he] at hsps0
      omega
    cases hr : storageRead ti st.files buf (st.pieceToSlot.getD pos (-1)).toNat 0
        (ti.pieceSize pos) with
    | none => rw [hr] at h; simp at h
    | some rb =>
      rw [hr] at h
      simp only [Option.some_bind] at h
      cases hw : storageWrite ti st.files rb.2 pos 0 (ti.pieceSize pos) with
      | none => rw [hw] at h; simp at h
      | some files2 =>
        rw [hw] at h
        simp only [Option.some_bind, Option.some_inj, Prod.mk.injEq] at h
        obtain ⟨h1, h2⟩ := h
        subst h1
        subst h2
        refine ⟨?_, rfl, ?_, ?_, rfl, rfl⟩
        · refine ⟨by simpa using hl1, by simpa using hl2, ?_, ?_, ?_, ?_⟩
          · intro p hp hpq
            simp only [PMState.ps, PMState.sp] at hpq ⊢
            rw [getD_set] at hpq ⊢
            rw [getD_set, getD_set, List.length_set]
            by_cases hpe : pos = p ∧ pos < st.pieceToSlot.length
            · rw [if_pos hpe] at hpq ⊢
              obtain ⟨hpe1, -⟩ := hpe
              subst hpe1
              refine ⟨by simpa using hpos, ?_⟩
              rw [if_neg (by
                  rintro ⟨he, -⟩
                  rw [Int.toNat_natCast] at he
                  exact hs0ne he),
                if_pos ⟨by simp, by omega⟩]
            · rw [if_neg hpe] at hpq ⊢
              obtain ⟨hb, hc⟩ := hdir1 p hp hpq
              refine ⟨hb, ?_⟩
              rw [if_neg, if_neg]
              · exact hc
              · rintro ⟨he, -⟩
                rw [← he] at hc
                push_neg at hpe
                omega
              · rintro ⟨he, -⟩
                rw [← he] at hc
                rw [hc] at hsps0
                have hppos : p = pos := by omega
                exact absurd hppos (by
                  intro hcon
                  exact (hpe ⟨hcon.symm, by omega⟩).elim)
          · intro s hs hsq
            simp only [PMState.ps, PMState.sp] at hsq ⊢
            rw [getD_set, getD_set, List.length_set] at hsq ⊢
            rw [getD_set]
            by_cases hse1 : (st.pieceToSlot.getD pos (-1)).toNat = s ∧
                (st.pieceToSlot.getD pos (-1)).toNat < st.slotToPiece.length
            · rw [if_pos hse1] at hsq
              omega
            · rw [if_neg hse1] at hsq ⊢
              by_cases hse2 : pos = s ∧ pos < st.slotToPiece.length
              · rw [if_pos hse2] at hsq ⊢
                obtain ⟨hse2a, -⟩ := hse2
                subst hse2a
                refine ⟨by simpa using hpos, ?_⟩
                rw [if_pos ⟨by simp, by omega⟩]
              · rw [if_neg hse2] at hsq ⊢
                obtain ⟨hb, hc⟩ := hdir2 s hs hsq
                refine ⟨hb, ?_⟩
                rw [if_neg]
                · exact hc
                · rintro ⟨he, -⟩
                  rw [← he] at hc
                  have hts : (st.pieceToSlot.getD pos (-1)).toNat = s := by
                    rw [hc]
                    simp
                  exact hse1 ⟨hts, by omega⟩
          · intro s hmem
            have hmem2 : s ∈ st.freeSlots ++ [(st.pieceToSlot.getD pos (-1)).toNat] := hmem
            simp only [PMState.sp]
            rcases List.mem_append.mp hmem2 with hm | hm
            · obtain ⟨hb, hc⟩ := hfree s hm
              refine ⟨hb, ?_⟩
              rw [getD_set, getD_set, List.length_set, if_neg, if_neg]
              · exact hc
              · rintro ⟨he, -⟩
                rw [← he] at hc
                omega
              · rintro ⟨he, -⟩
                rw [← he] at hc
                omega
            · have hseq : s = (st.pieceToSlot.getD pos (-1)).toNat := by simpa using hm
              subst hseq
              refine ⟨hs0N, ?_⟩
              rw [getD_set, if_pos ⟨rfl, by rw [List.length_set]; omega⟩]
          · show (st.freeSlots ++ [(st.pieceToSlot.getD pos (-1)).toNat]).Nodup
            rw [List.nodup_append]
            refine ⟨hnd, List.nodup_singleton _, ?_⟩
            intro a ha hb
            have hab : a = (st.pieceToSlot.getD pos (-1)).toNat := by simpa using hb
            have h2 := (hfree a ha).2
            rw [hab] at h2
            omega
        · intro u hu hsu
          simp only [PMState.sp] at hsu ⊢
          rw [getD_set, getD_set, List.length_set, if_neg, if_neg]
          · exact hsu
          · rintro ⟨he, -⟩
            exact hu he.symm
          · rintro ⟨he, -⟩
            rw [← he] at hsu
            omega
        · intro p hp
          simp only [PMState.ps] at hp ⊢
          rw [getD_set, if_neg]
          · exact hp
          · rintro ⟨he, -⟩
            rw [← he] at hp
            omega

/-- The allocation loop keeps the invariant: drained slots become free and the
remaining pending list replaces `m_unallocated_slots`. -/
theorem allocLoop_inv (ti : TInfo) (N : Nat) :
    ∀ (n : Nat) (L : List Nat) (st : PMState) (buf : List Nat) (st2 : PMState),
    PMInvT N st → (∀ s ∈ L, s < N ∧ st.sp s = -1) → L.Nodup →
    allocLoop ti n L st buf = some st2 →
    PMInv N st2 ∧ (∀ p, st.ps p = -1 → st2.ps p = -1) ∧
    st2.havePiece = st.havePiece ∧ st2.bytesLeft = st.bytesLeft := by
  intro n
  induction n with
  | zero =>
    intro L st buf st2 hInv hL hLnd h
    rw [allocLoop] at h
    obtain rfl := (Option.some_inj.mp h).symm
    exact ⟨⟨hInv, hL, hLnd⟩, fun p hp => hp, rfl, rfl⟩
  | succ n ih =>
    intro L st buf st2 hInv hL hLnd h
    cases L with
    | nil =>
      rw [allocLoop] at h
      obtain rfl := (Option.some_inj.mp h).symm
      exact ⟨⟨hInv, by simp, List.nodup_nil⟩, fun p hp => hp, rfl, rfl⟩
    | cons pos rest =>
      rw [allocLoop] at h
      cases ha : allocStep ti st buf pos with
      | none => rw [ha] at h; simp at h
      | some sb =>
        rw [ha] at h
        simp only [Option.bind_eq_bind, Option.some_bind] at h
        obtain ⟨hpos, hsp⟩ := hL pos (by simp)
        obtain ⟨hnotmem, hrestnd⟩ := List.nodup_cons.mp hLnd
        obtain ⟨hInv2, hUn2, hKeep, hPs2, hHave, hBytes⟩ :=
          allocStep_inv ti N st buf pos hInv hpos hsp sb.1 sb.2 ha
        obtain ⟨hInv3, hPs3, hHave3, hBytes3⟩ := ih rest sb.1 sb.2 st2 hInv2
          (fun s hs => ⟨(hL s (by simp [hs])).1,
            hKeep s (fun he => hnotmem (he ▸ hs)) (hL s (by simp [hs])).2⟩)
          hrestnd h
        exact ⟨hInv3, fun p hp => hPs3 p (hPs2 p hp),
          hHave3.trans hHave, hBytes3.trans hBytes⟩

/-- `allocate_slots` preserves the invariant and touches neither `have_piece`
nor `bytes_left`. -/
theorem allocateSlots_inv (ti : TInfo) (N : Nat) (st : PMState) (n : Nat) (st2 : PMState)
    (hN : ti.numPieces = N) (hInv : PMInv N st) (h : allocateSlots ti st n = some st2) :
    PMInv N st2 ∧ (∀ p, st.ps p = -1 → st2.ps p = -1) ∧
    st2.havePiece = st.havePiece ∧ st2.bytesLeft = st.bytesLeft := by
  obtain ⟨hT, hU, hUnd⟩ := hInv
  rw [allocateSlots] at h
  have hl1 := hT.1
  have hl2 := hT.2.1
  have hg : checkInvariantG ti st = some () := by
    rw [checkInvariantG, if_pos]
    exact ⟨by omega, by omega⟩
  rw [hg] at h
  simp only [Option.bind_eq_bind, Option.some_bind] at h
  cases hloop : allocLoop ti n st.unallocatedSlots st (List.replicate ti.pieceLength 0) with
  | none => rw [hloop] at h; simp at h
  | some st3 =>
    rw [hloop] at h
    obtain ⟨hInv3, hPs, hH, hB⟩ := allocLoop_inv ti N n st.unallocatedSlots st _ st3 hT hU hUnd hloop
    have hg2 : checkInvariantG ti st3 = some () := by
      rw [checkInvariantG, if_pos]
      have hm1 := hInv3.1.1
      have hm2 := hInv3.1.2.1
      exact ⟨by omega, by omega⟩
    simp only [Option.some_bind] at h
    rw [hg2] at h
    simp only [Option.some_bind, Option.some_inj] at h
    subst h
    exact ⟨hInv3, hPs, hH, hB⟩

/-- Facts about taking the last element (`end() - 1`) of a duplicate-free
vector and erasing it. -/
theorem getLast_dropLast_facts (l : List Nat) (a : Nat) (hnd : l.Nodup)
    (h : l.getLast? = some a) :
    a ∈ l ∧ a ∉ l.dropLast ∧ (∀ x, x ∈ l.dropLast → x ∈ l) ∧ l.dropLast.Nodup := by
  have hmem : a ∈ l := List.mem_of_mem_getLast? h
  have hne : l ≠ [] := by
    intro hc
    rw [hc] at h
    simp at h
  have hds : l.dropLast ++ [l.getLast hne] = l := List.dropLast_append_getLast hne
  have ha : a = l.getLast hne := by
    rw [List.getLast?_eq_getLast l hne] at h
    exact (Option.some_inj.mp h).symm
  have hnd2 : (l.dropLast ++ [l.getLast hne]).Nodup := by rw [hds]; exact hnd
  rw [List.nodup_append] at hnd2
  refine ⟨hmem, ?_, ?_, hnd2.1⟩
  · intro hc
    exact hnd2.2.2 (ha ▸ hc) (by simp [ha])
  · intro x hx
    exact (List.dropLast_sublist l).mem hx

/-- Taking the last free slot keeps the invariant. -/
theorem chooseSlotLast_inv (N : Nat) (st2 : PMState) (stR : PMState) (chosen : Nat)
    (hInv : PMInv N st2) (h : chooseSlotLast st2 = some (stR, chosen)) :
    PMInv N stR ∧ chosen < N ∧ stR.sp chosen = -2 ∧ chosen ∉ stR.freeSlots ∧
    stR.pieceToSlot = st2.pieceToSlot ∧
    stR.havePiece = st2.havePiece ∧ stR.bytesLeft = st2.bytesLeft := by
  obtain ⟨⟨hl1, hl2, hdir1, hdir2, hfree, hnd⟩, hU, hUnd⟩ := hInv
  rw [chooseSlotLast] at h
  cases hlast : st2.freeSlots.getLast? with
  | none => rw [hlast] at h; simp at h
  | some last =>
    rw [hlast] at h
    simp only [Option.bind_eq_bind, Option.some_bind, Option.some_inj, Prod.mk.injEq] at h
    obtain ⟨h1, h2⟩ := h
    subst h1
    subst h2
    obtain ⟨hmem, hnotdl, hsub, hdlnd⟩ :=
      getLast_dropLast_facts st2.freeSlots last hnd hlast
    obtain ⟨hbN, hbsp⟩ := hfree last hmem
    exact ⟨⟨⟨hl1, hl2, hdir1, hdir2, fun s hs => hfree s (hsub s hs), hdlnd⟩, hU, hUnd⟩,
      hbN, hbsp, hnotdl, rfl, rfl, rfl⟩

/-- The slot-selection body keeps the invariant; the chosen slot is a valid
free slot removed from the free list. -/
theorem chooseSlotFrom_inv (ti : TInfo) (N : Nat) (st1 : PMState) (pieceIndex : Nat)
    (stR : PMState) (chosen : Nat)
    (hN : ti.numPieces = N) (hInv : PMInv N st1)
    (h : chooseSlotFrom ti st1 pieceIndex = some (stR, chosen)) :
    PMInv N stR ∧ chosen < N ∧ stR.sp chosen = -2 ∧ chosen ∉ stR.freeSlots ∧
    (∀ p, st1.ps p = -1 → stR.ps p = -1) ∧
    stR.havePiece = st1.havePiece ∧ stR.bytesLeft = st1.bytesLeft := by
  obtain ⟨⟨hl1, hl2, hdir1, hdir2, hfree, hnd⟩, hU, hUnd⟩ := hInv
  rw [chooseSlotFrom] at h
  by_cases hcont : st1.freeSlots.contains pieceIndex
  · rw [if_pos hcont] at h
    simp only [Option.some_inj, Prod.mk.injEq] at h
    obtain ⟨h1, h2⟩ := h
    subst h1
    subst h2
    have hmem : pieceIndex ∈ st1.freeSlots := List.elem_iff.mp hcont
    obtain ⟨hbN, hbsp⟩ := hfree pieceIndex hmem
    refine ⟨⟨⟨hl1, hl2, hdir1, hdir2, ?_, hnd.erase pieceIndex⟩, hU, hUnd⟩,
      hbN, hbsp, hnd.not_mem_erase, fun p hp => hp, rfl, rfl⟩
    intro s hs
    exact hfree s (List.mem_of_mem_erase hs)
  · rw [if_neg hcont] at h
    cases hlast : st1.freeSlots.getLast? with
    | none => rw [hlast] at h; simp at h
    | some last =>
      rw [hlast] at h
      simp only [Option.bind_eq_bind, Option.some_bind] at h
      by_cases hspecial : last = ti.numPieces - 1 ∧ pieceIndex ≠ ti.numPieces - 1
      · rw [if_pos hspecial] at h
        by_cases hone : st1.freeSlots.length = 1
        · rw [if_pos hone] at h
          cases halloc : allocateSlots ti st1 5 with
          | none => rw [halloc] at h; simp at h
          | some stb =>
            rw [halloc] at h
            simp only [Option.some_bind] at h
            obtain ⟨hIb, hPb, hHb, hBb⟩ := allocateSlots_inv ti N st1 5 stb hN
              ⟨⟨hl1, hl2, hdir1, hdir2, hfree, hnd⟩, hU, hUnd⟩ halloc
            obtain ⟨hIc, hcN, hcsp, hcnm, hcps, hcH, hcB⟩ :=
              chooseSlotLast_inv N stb stR chosen hIb h
            refine ⟨hIc, hcN, hcsp, hcnm, ?_, hcH.trans hHb, hcB.trans hBb⟩
            intro p hp
            have := hPb p hp
            simp only [PMState.ps] at this ⊢
            rw [hcps]
            exact this
        · rw [if_neg hone] at h
          simp only [Option.some_bind] at h
          obtain ⟨hIc, hcN, hcsp, hcnm, hcps, hcH, hcB⟩ :=
            chooseSlotLast_inv N st1 stR chosen
              ⟨⟨hl1, hl2, hdir1, hdir2, hfree, hnd⟩, hU, hUnd⟩ h
          refine ⟨hIc, hcN, hcsp, hcnm, ?_, hcH, hcB⟩
          intro p hp
          simp only [PMState.ps] at hp ⊢
          rw [hcps]
          exact hp
      · rw [if_neg hspecial] at h
        simp only [Option.some_inj, Prod.mk.injEq] at h
        obtain ⟨h1, h2⟩ := h
        subst h1
        subst h2
        obtain ⟨hmem, hnotdl, hsub, hdlnd⟩ :=
          getLast_dropLast_facts st1.freeSlots last hnd hlast
        obtain ⟨hbN, hbsp⟩ := hfree last hmem
        exact ⟨⟨⟨hl1, hl2, hdir1, hdir2,
            fun s hs => hfree s (hsub s hs), hdlnd⟩, hU, hUnd⟩,
          hbN, hbsp, hnotdl, fun p hp => hp, rfl, rfl⟩

/-- `chooseSlot` keeps the invariant; the chosen slot is a valid free slot
that has been removed from the free list, pieces without a slot keep none,
and the progress counters are untouched. -/
theorem chooseSlot_inv (ti : TInfo) (N : Nat) (st : PMState) (pieceIndex : Nat)
    (st1 : PMState) (chosen : Nat)
    (hN : ti.numPieces = N) (hInv : PMInv N st)
    (h : chooseSlot ti st pieceIndex = some (st1, chosen)) :
    PMInv N st1 ∧ chosen < N ∧ st1.sp chosen = -2 ∧ chosen ∉ st1.freeSlots ∧
    (∀ p, st.ps p = -1 → st1.ps p = -1) ∧
    st1.havePiece = st.havePiece ∧ st1.bytesLeft = st.bytesLeft := by
  rw [chooseSlot] at h
  by_cases hempty : st.freeSlots.isEmpty
  · rw [if_pos hempty] at h
    cases halloc : allocateSlots ti st 5 with
    | none => rw [halloc] at h; simp at h
    | some sta =>
      rw [halloc] at h
      simp only [Option.some_bind] at h
      obtain ⟨hIa, hPa, hHa, hBa⟩ := allocateSlots_inv ti N st 5 sta hN hInv halloc
      obtain ⟨hIc, hcN, hcsp, hcnm, hcps, hcH, hcB⟩ :=
        chooseSlotFrom_inv ti N sta pieceIndex st1 chosen hN hIa h
      exact ⟨hIc, hcN, hcsp, hcnm, fun p hp => hcps p (hPa p hp),
        hcH.trans hHa, hcB.trans hBa⟩
  · rw [if_neg hempty] at h
    simp only [Option.some_bind] at h
    exact chooseSlotFrom_inv ti N st pieceIndex st1 chosen hN hInv h

/-- In-range optional indexing reads the `getD` value. -/
theorem getElem?_eq_getD_int (l : List Int) (i : Nat) (h : i < l.length) :
    l[i]? = some (l.getD i (-1)) := by
  rw [List.getElem?_eq_getElem h, List.getD_eq_getElem _ _ h]

/-- The collision swap of `slot_for_piece` keeps the invariant. `st1` is the
state right after `chooseSlot`, `stA` the state after the two assignments
`m_slot_to_piece[chosen] = piece_index` / `m_piece_to_slot[piece_index] =
chosen`; the lemma covers both the swapping and the non-swapping exit, and
reports the slot the call returns as the one `piece_index` is mapped to. -/
theorem swapIfCollision_inv (ti : TInfo) (N : Nat) (st1 : PMState)
    (pieceIndex chosen : Nat) (stA : PMState) (srSt : PMState) (srSlot : Nat)
    (hN : ti.numPieces = N) (hpi : pieceIndex < N)
    (hInv1 : PMInv N st1) (hchN : chosen < N) (hchsp : st1.sp chosen = -2)
    (hchnm : chosen ∉ st1.freeSlots) (hps1 : st1.ps pieceIndex = -1)
    (hA : stA = { st1 with
      slotToPiece := st1.slotToPiece.set chosen (pieceIndex : Int),
      pieceToSlot := st1.pieceToSlot.set pieceIndex (chosen : Int) })
    (h : swapIfCollision ti stA pieceIndex chosen = some (srSt, srSlot)) :
    PMInv N srSt ∧ srSt.havePiece = st1.havePiece ∧ srSt.bytesLeft = st1.bytesLeft ∧
    srSt.ps pieceIndex = (srSlot : Int) ∧ srSlot < N := by
  obtain ⟨⟨hl1, hl2, hdir1, hdir2, hfree, hnd⟩, hU, hUnd⟩ := hInv1
  simp only [PMState.sp, PMState.ps] at hchsp hps1 hfree hU hdir1 hdir2
  subst hA
  have hlA1 : (st1.pieceToSlot.set pieceIndex (chosen : Int)).length = N := by
    simpa using hl1
  have hlA2 : (st1.slotToPiece.set chosen (pieceIndex : Int)).length = N := by
    simpa using hl2
  rw [swapIfCollision, sp_getElem? _ pieceIndex (by simp only [List.length_set]; omega)]
    at h
  simp only [Option.bind_eq_bind, Option.some_bind] at h
  have hspA_pi : ({ st1 with
      slotToPiece := st1.slotToPiece.set chosen (pieceIndex : Int),
      pieceToSlot := st1.pieceToSlot.set pieceIndex (chosen : Int) } : PMState).sp
        pieceIndex =
      if chosen = pieceIndex then (pieceIndex : Int)
      else st1.slotToPiece.getD pieceIndex (-1) := by
    simp only [PMState.sp]
    rw [getD_set]
    by_cases hce : chosen = pieceIndex
    · rw [if_pos ⟨hce, by omega⟩, if_pos hce]
    · rw [if_neg (by rintro ⟨he, -⟩; exact hce he), if_neg hce]
  rw [hspA_pi] at h
  by_cases hceq : chosen = pieceIndex
  · rw [if_pos hceq] at h
    rw [if_neg (by rintro ⟨he, -⟩; exact he hceq)] at h
    simp only [Option.some_inj, Prod.mk.injEq] at h
    obtain ⟨h1, h2⟩ := h
    subst h1
    subst h2
    subst hceq
    refine ⟨⟨⟨by simpa using hl1, by simpa using hl2, ?_, ?_, ?_, hnd⟩, ?_, hUnd⟩,
      rfl, rfl, ?_, hchN⟩
    · intro p hp hq
      simp only [PMState.ps, PMState.sp] at hq ⊢
      rw [getD_set] at hq ⊢
      rw [getD_set]
      by_cases hpe : chosen = p ∧ chosen < st1.pieceToSlot.length
      · rw [if_pos hpe] at hq ⊢
        obtain ⟨hpe1, -⟩ := hpe
        subst hpe1
        exact ⟨by simpa using hchN, by rw [if_pos ⟨by simp, by omega⟩]⟩
      · rw [if_neg hpe] at hq ⊢
        obtain ⟨hb, hc⟩ := hdir1 p hp hq
        refine ⟨hb, ?_⟩
        rw [if_neg]
        · exact hc
        · rintro ⟨he, -⟩
          rw [← he] at hc
          omega
    · intro s hs hq
      simp only [PMState.ps, PMState.sp] at hq ⊢
      rw [getD_set] at hq ⊢
      rw [getD_set]
      by_cases hse : chosen = s ∧ chosen < st1.slotToPiece.length
      · rw [if_pos hse] at hq ⊢
        obtain ⟨hse1, -⟩ := hse
        subst hse1
        exact ⟨by simpa using hpi, by rw [if_pos ⟨by simp, by omega⟩]⟩
      · rw [if_neg hse] at hq ⊢
        obtain ⟨hb, hc⟩ := hdir2 s hs hq
        refine ⟨hb, ?_⟩
        rw [if_neg]
        · exact hc
        · rintro ⟨he, -⟩
          rw [← he] at hc
          omega
    · intro s hmem
      obtain ⟨hb, hc⟩ := hfree s hmem
      refine ⟨hb, ?_⟩
      simp only [PMState.sp]
      rw [getD_set, if_neg]
      · exact hc
      · rintro ⟨he, -⟩
        exact hchnm (he ▸ hmem)
    · intro s hmem
      obtain ⟨hb, hc⟩ := hU s hmem
      refine ⟨hb, ?_⟩
      simp only [PMState.sp]
      rw [getD_set, if_neg]
      · exact hc
      · rintro ⟨he, -⟩
        rw [← he] at hc
        omega
    · simp only [PMState.ps]
      rw [getD_set, if_pos ⟨rfl, by omega⟩]
  · rw [if_neg hceq] at h
    by_cases hq : 0 ≤ st1.slotToPiece.getD pieceIndex (-1)
    · rw [if_pos ⟨hceq, hq⟩] at h
      obtain ⟨hqN, hqps⟩ := hdir2 pieceIndex (by omega) hq
      have hqne : (st1.slotToPiece.getD pieceIndex (-1)).toNat ≠ pieceIndex := by
        intro he
        rw [he] at hqps
        omega
      cases hrd : storageRead ti ({ st1 with
          slotToPiece := st1.slotToPiece.set chosen (pieceIndex : Int),
          pieceToSlot := st1.pieceToSlot.set pieceIndex (chosen : Int) } : PMState).files
          (List.replicate ti.pieceLength 0) pieceIndex 0 ti.pieceLength with
      | none => rw [hrd] at h; simp at h
      | some rb =>
        rw [hrd] at h
        simp only [Option.some_bind] at h
        cases hwr : storageWrite ti ({ st1 with
            slotToPiece := st1.slotToPiece.set chosen (pieceIndex : Int),
            pieceToSlot := st1.pieceToSlot.set pieceIndex (chosen : Int) } : PMState).files
            rb.2 chosen 0 ti.pieceLength with
        | none => rw [hwr] at h; simp at h
        | some files2 =>
          rw [hwr] at h
          simp only [Option.some_bind] at h
          have hbread : (st1.slotToPiece.set chosen (pieceIndex : Int))[chosen]? =
              some (pieceIndex : Int) := by
            rw [List.getElem?_set, if_pos rfl, if_pos (by omega)]
          have hcread : (st1.pieceToSlot.set pieceIndex (chosen : Int))[pieceIndex]? =
              some (chosen : Int) := by
            rw [List.getElem?_set, if_pos rfl, if_pos (by omega)]
          have hdread : (st1.pieceToSlot.set pieceIndex
              (chosen : Int))[(st1.slotToPiece.getD pieceIndex (-1)).toNat]? =
              some (st1.pieceToSlot.getD
                (st1.slotToPiece.getD pieceIndex (-1)).toNat (-1)) := by
            rw [List.getElem?_set, if_neg (fun hcon => hqne hcon.symm),
              getElem?_eq_getD_int _ _ (by omega)]
          rw [hbread] at h
          simp only [Option.some_bind] at h
          rw [hcread] at h
          simp only [Option.some_bind] at h
          rw [hdread] at h
          simp only [Option.some_bind] at h
          rw [hqps] at h
          simp only [Option.some_inj, Prod.mk.injEq] at h
          obtain ⟨h1, h2⟩ := h
          subst h1
          subst h2
          have hsp3 : ∀ s : Nat,
              (((st1.slotToPiece.set chosen ((pieceIndex : Nat) : Int)).set pieceIndex
                  ((pieceIndex : Nat) : Int)).set chosen
                  (st1.slotToPiece.getD pieceIndex (-1))).getD s (-1) =
                if chosen = s then st1.slotToPiece.getD pieceIndex (-1)
                else if pieceIndex = s then ((pieceIndex : Nat) : Int)
                else st1.slotToPiece.getD s (-1) := by
            intro s
            rw [getD_set, getD_set, getD_set, List.length_set, List.length_set]
            by_cases h1 : chosen = s
            · rw [if_pos ⟨h1, by omega⟩, if_pos h1]
            · rw [if_neg (by rintro ⟨he, -⟩; exact h1 he), if_neg h1]
              by_cases h2 : pieceIndex = s
              · rw [if_pos ⟨h2, by omega⟩, if_pos h2]
              · rw [if_neg (by rintro ⟨he, -⟩; exact h2 he), if_neg h2,
                  if_neg (by rintro ⟨he, -⟩; exact h1 he)]
          have hps3 : ∀ p : Nat,
              (((st1.pieceToSlot.set pieceIndex ((chosen : Nat) : Int)).set pieceIndex
                  ((pieceIndex : Nat) : Int)).set
                  (st1.slotToPiece.getD pieceIndex (-1)).toNat
                  ((chosen : Nat) : Int)).getD p (-1) =
                if (st1.slotToPiece.getD pieceIndex (-1)).toNat = p
                then ((chosen : Nat) : Int)
                else if pieceIndex = p then ((pieceIndex : Nat) : Int)
                else st1.pieceToSlot.getD p (-1) := by
            intro p
            rw [getD_set, getD_set, getD_set, List.length_set, List.length_set]
            by_cases h1 : (st1.slotToPiece.getD pieceIndex (-1)).toNat = p
            · rw [if_pos ⟨h1, by omega⟩, if_pos h1]
            · rw [if_neg (by rintro ⟨he, -⟩; exact h1 he), if_neg h1]
              by_cases h2 : pieceIndex = p
              · rw [if_pos ⟨h2, by omega⟩, if_pos h2]
              · rw [if_neg (by rintro ⟨he, -⟩; exact h2 he), if_neg h2,
                  if_neg (by rintro ⟨he, -⟩; exact h2 he)]
          refine ⟨⟨⟨by simpa using hl1, by simpa using hl2, ?_, ?_, ?_, hnd⟩, ?_, hUnd⟩,
            rfl, rfl, ?_, by omega⟩
          · intro p hp hpq
            simp only [PMState.ps, PMState.sp] at hpq ⊢
            rw [hps3] at hpq ⊢
            by_cases h1 : (st1.slotToPiece.getD pieceIndex (-1)).toNat = p
            · rw [if_pos h1] at hpq ⊢
              simp only [Int.toNat_natCast]
              refine ⟨hchN, ?_⟩
              rw [hsp3, if_pos rfl]
              omega
            · rw [if_neg h1] at hpq ⊢
              by_cases h2 : pieceIndex = p
              · rw [if_pos h2] at hpq ⊢
                simp only [Int.toNat_natCast]
                refine ⟨by omega, ?_⟩
                rw [hsp3, if_neg hceq, if_pos rfl]
                rw [h2]
              · rw [if_neg h2] at hpq ⊢
                obtain ⟨hb, hc⟩ := hdir1 p hp hpq
                refine ⟨hb, ?_⟩
                rw [hsp3, if_neg, if_neg]
                · exact hc
                · intro he
                  rw [← he] at hc
                  omega
                · intro he
                  rw [← he] at hc
                  have hteq : (st1.slotToPiece.getD pieceIndex (-1)).toNat = p := by omega
                  exact h1 hteq
          · intro s hs hsq
            simp only [PMState.ps, PMState.sp] at hsq ⊢
            rw [hsp3] at hsq ⊢
            by_cases h1 : chosen = s
            · rw [if_pos h1] at hsq ⊢
              refine ⟨hqN, ?_⟩
              rw [hps3, if_pos rfl]
              omega
            · rw [if_neg h1] at hsq ⊢
              by_cases h2 : pieceIndex = s
              · rw [if_pos h2] at hsq ⊢
                simp only [Int.toNat_natCast]
                refine ⟨by omega, ?_⟩
                rw [hps3, if_neg hqne, if_pos rfl]
                rw [h2]
              · rw [if_neg h2] at hsq ⊢
                obtain ⟨hb, hc⟩ := hdir2 s hs hsq
                refine ⟨hb, ?_⟩
                rw [hps3, if_neg, if_neg]
                · exact hc
                · intro he
                  rw [← he] at hc
                  omega
                · intro he
                  rw [← he] at hc
                  rw [hqps] at hc
                  have hpis : pieceIndex = s := by omega
                  exact h2 hpis
          · intro s hmem
            obtain ⟨hb, hc⟩ := hfree s hmem
            refine ⟨hb, ?_⟩
            simp only [PMState.sp]
            rw [hsp3, if_neg, if_neg]
            · exact hc
            · intro he
              rw [← he] at hc
              omega
            · intro he
              exact hchnm (he ▸ hmem)
          · intro s hmem
            obtain ⟨hb, hc⟩ := hU s hmem
            refine ⟨hb, ?_⟩
            simp only [PMState.sp]
            rw [hsp3, if_neg, if_neg]
            · exact hc
            · intro he
              rw [← he] at hc
              omega
            · intro he
              rw [← he] at hc
              omega
          · simp only [PMState.ps]
            rw [hps3, if_neg hqne, if_pos rfl]
    · rw [if_neg (by rintro ⟨-, hcon⟩; exact hq hcon)] at h
      simp only [Option.some_inj, Prod.mk.injEq] at h
      obtain ⟨h1, h2⟩ := h
      subst h1
      subst h2
      refine ⟨⟨⟨by simpa using hl1, by simpa using hl2, ?_, ?_, ?_, hnd⟩, ?_, hUnd⟩,
        rfl, rfl, ?_, hchN⟩
      · intro p hp hpq
        simp only [PMState.ps, PMState.sp] at hpq ⊢
        rw [getD_set] at hpq ⊢
        rw [getD_set]
        by_cases hp2 : pieceIndex = p ∧ pieceIndex < st1.pieceToSlot.length
        · rw [if_pos hp2] at hpq ⊢
          obtain ⟨hp2a, -⟩ := hp2
          subst hp2a
          refine ⟨by simpa using hchN, ?_⟩
          rw [if_pos ⟨by simp, by omega⟩]
        · rw [if_neg hp2] at hpq ⊢
          obtain ⟨hb, hc⟩ := hdir1 p hp hpq
          refine ⟨hb, ?_⟩
          rw [if_neg]
          · exact hc
          · rintro ⟨he, -⟩
            rw [← he] at hc
            omega
      · intro s hs hsq
        simp only [PMState.ps, PMState.sp] at hsq ⊢
        rw [getD_set] at hsq ⊢
        rw [getD_set]
        by_cases hs1 : chosen = s ∧ chosen < st1.slotToPiece.length
        · rw [if_pos hs1] at hsq ⊢
          obtain ⟨hs1a, -⟩ := hs1
          subst hs1a
          refine ⟨by simpa using hpi, ?_⟩
          rw [if_pos ⟨by simp, by omega⟩]
        · rw [if_neg hs1] at hsq ⊢
          obtain ⟨hb, hc⟩ := hdir2 s hs hsq
          refine ⟨hb, ?_⟩
          rw [if_neg]
          · exact hc
          · rintro ⟨he, -⟩
            rw [← he] at hc
            omega
      · intro s hmem
        obtain ⟨hb, hc⟩ := hfree s hmem
        refine ⟨hb, ?_⟩
        simp only [PMState.sp]
        rw [getD_set, if_neg]
        · exact hc
        · rintro ⟨he, -⟩
          exact hchnm (he ▸ hmem)
      · intro s hmem
        obtain ⟨hb, hc⟩ := hU s hmem
        refine ⟨hb, ?_⟩
        simp only [PMState.sp]
        rw [getD_set, if_neg]
        · exact hc
        · rintro ⟨he, -⟩
          rw [← he] at hc
          omega
      · simp only [PMState.ps]
        rw [getD_set, if_pos ⟨rfl, by omega⟩]

/-- `slot_for_piece` keeps the invariant; the returned slot is in range and is
exactly the slot the requested piece is mapped to afterwards, and neither
`have_piece` nor `bytes_left` moves. -/
theorem slotForPiece_inv (ti : TInfo) (N : Nat) (st : PMState) (pieceIndex : Nat)
    (st2 : PMState) (slot : Nat)
    (hN : ti.numPieces = N) (hpi : pieceIndex < N) (hInv : PMInv N st)
    (h : slotForPiece ti st pieceIndex = some (st2, slot)) :
    PMInv N st2 ∧ st2.havePiece = st.havePiece ∧ st2.bytesLeft = st.bytesLeft ∧
    st2.ps pieceIndex = (slot : Int) ∧ slot < N := by
  have hl1 := hInv.1.1
  have hl2 := hInv.1.2.1
  rw [slotForPiece] at h
  have hg : checkInvariantG ti st = some () := by
    rw [checkInvariantG, if_pos ⟨by omega, by omega⟩]
  rw [hg, ps_getElem? st pieceIndex (by omega)] at h
  simp only [Option.bind_eq_bind, Option.some_bind] at h
  by_cases hs : st.ps pieceIndex = -1
  · rw [if_neg (by simp [hs])] at h
    cases hsc : chooseSlot ti st pieceIndex with
    | none => rw [hsc] at h; simp at h
    | some sc =>
      obtain ⟨sc1, chosen⟩ := sc
      rw [hsc] at h
      simp only [Option.some_bind] at h
      obtain ⟨hIc, hcN, hcsp, hcnm, hcps, hcH, hcB⟩ :=
        chooseSlot_inv ti N st pieceIndex sc1 chosen hN hInv hsc
      cases hsw : swapIfCollision ti { sc1 with
          slotToPiece := sc1.slotToPiece.set chosen (pieceIndex : Int),
          pieceToSlot := sc1.pieceToSlot.set pieceIndex (chosen : Int) }
          pieceIndex chosen with
      | none => rw [hsw] at h; simp at h
      | some sr =>
        obtain ⟨srSt, srSlot⟩ := sr
        rw [hsw] at h
        simp only [Option.some_bind] at h
        obtain ⟨hIs, hsH, hsB, hsps, hsN⟩ :=
          swapIfCollision_inv ti N sc1 pieceIndex chosen _ srSt srSlot hN hpi hIc
            hcN hcsp hcnm (hcps pieceIndex hs) rfl hsw
        have hg2 : checkInvariantG ti srSt = some () := by
          rw [checkInvariantG, if_pos]
          have hm1 := hIs.1.1
          have hm2 := hIs.1.2.1
          exact ⟨by omega, by omega⟩
        rw [hg2] at h
        simp only [Option.some_bind, Option.some_inj, Prod.mk.injEq] at h
        obtain ⟨h1, h2⟩ := h
        subst h1
        subst h2
        exact ⟨hIs, hsH.trans hcH, hsB.trans hcB, hsps, hsN⟩
  · rw [if_pos hs] at h
    by_cases hq0 : 0 ≤ st.ps pieceIndex
    · rw [if_pos hq0] at h
      simp only [Option.some_inj, Prod.mk.injEq] at h
      obtain ⟨h1, h2⟩ := h
      subst h1
      subst h2
      exact ⟨hInv, rfl, rfl, by omega, (hInv.1.2.2.1 pieceIndex hpi hq0).1⟩
    · rw [if_neg hq0] at h
      simp at h

/-! ### Resume-check invariants -/

/-- Before anything is found, all piece sizes are outstanding. -/
theorem bytesLeftSpec_replicate_false (ti : TInfo) (N : Nat) (hN : 0 < N)
    (hNum : ti.numPieces = N) :
    bytesLeftSpec ti N (List.replicate N false) =
      ((N - 1 : Nat) * ti.pieceLength + ti.lastPieceSize : Int) := by
  obtain ⟨M, rfl⟩ : ∃ M, N = M + 1 := ⟨N - 1, by omega⟩
  have hrepl : ∀ p : Nat, (List.replicate (M + 1) false).getD p false = false := by
    intro p
    rw [List.getD_eq_getElem?_getD, List.getElem?_replicate]
    by_cases hp : p < M + 1
    · rw [if_pos hp]
      rfl
    · rw [if_neg hp]
      rfl
  rw [bytesLeftSpec, Finset.sum_range_succ]
  have hstep : ∀ p ∈ Finset.range M,
      (if (List.replicate (M + 1) false).getD p false then 0
        else (ti.pieceSize p : Int)) = (ti.pieceLength : Int) := by
    intro p hp
    rw [hrepl p, if_neg (by simp), TInfo.pieceSize,
      if_neg (by rw [Finset.mem_range] at hp; omega)]
  rw [Finset.sum_congr rfl hstep, Finset.sum_const, Finset.card_range,
    hrepl M, if_neg (by simp), TInfo.pieceSize, if_pos (by omega)]
  simp [mul_comm]

/-- Marking a piece found removes exactly its size from the outstanding sum. -/
theorem bytesLeftSpec_set_true (ti : TInfo) (N : Nat) (hv : List Bool) (fp : Nat)
    (hlen : hv.length = N) (hfp : fp < N) (hfalse : hv.getD fp false = false) :
    bytesLeftSpec ti N (hv.set fp true) =
      bytesLeftSpec ti N hv - (ti.pieceSize fp : Int) := by
  rw [bytesLeftSpec, bytesLeftSpec]
  have hmem : fp ∈ Finset.range N := Finset.mem_range.mpr hfp
  rw [← Finset.sum_erase_add _ _ hmem, ← Finset.sum_erase_add _ _ hmem]
  have hcongr : ∀ p ∈ (Finset.range N).erase fp,
      (if (hv.set fp true).getD p false then 0 else (ti.pieceSize p : Int)) =
      (if hv.getD p false then 0 else (ti.pieceSize p : Int)) := by
    intro p hp
    rw [getD_set, if_neg (show ¬(fp = p ∧ fp < hv.length) by
      rintro ⟨he, -⟩
      exact (Finset.ne_of_mem_erase hp) he.symm)]
  rw [Finset.sum_congr rfl hcongr]
  rw [getD_set, if_pos (show fp = fp ∧ fp < hv.length from ⟨rfl, by omega⟩), hfalse]
  simp

/-- Marking an already-found piece found again changes nothing in the sum. -/
theorem bytesLeftSpec_set_true_again (ti : TInfo) (N : Nat) (hv : List Bool) (fp : Nat)
    (htrue : hv.getD fp false = true) :
    bytesLeftSpec ti N (hv.set fp true) = bytesLeftSpec ti N hv := by
  rw [bytesLeftSpec, bytesLeftSpec]
  apply Finset.sum_congr rfl
  intro p hp
  rw [getD_set]
  by_cases hpe : fp = p ∧ fp < hv.length
  · rw [if_pos hpe, ← hpe.1, htrue]
  · rw [if_neg hpe]

/-- Any hit of the candidate scan lies between `current_slot` and `N`. -/
theorem matchLoop_range (hm : Nat → Bool) (hv : List Bool) (cur n fp : Nat)
    (h : matchLoop hm hv cur n = some fp) : cur ≤ fp ∧ fp < n := by
  rw [matchLoop] at h
  have key : ∀ (l : List Nat) (acc : Option Nat),
      (l.foldl (fun acc i => if hv.getD i false ∧ i ≠ cur then acc
        else if hm i then some i else acc) acc = some fp) →
      acc = some fp ∨ fp ∈ l := by
    intro l
    induction l with
    | nil => intro acc hacc; exact Or.inl hacc
    | cons a as ih =>
      intro acc hacc
      rw [List.foldl_cons] at hacc
      rcases ih _ hacc with hin | hin
      · by_cases h1 : hv.getD a false ∧ a ≠ cur
        · rw [if_pos h1] at hin
          exact Or.inl hin
        · rw [if_neg h1] at hin
          by_cases h2 : hm a
          · rw [if_pos h2] at hin
            exact Or.inr (by simp [Option.some_inj.mp hin])
          · rw [if_neg h2] at hin
            exact Or.inl hin
      · exact Or.inr (by simp [hin])
  rcases key _ _ h with hin | hin
  · simp at hin
  · rw [List.mem_range'] at hin
    obtain ⟨i, hi, rfl⟩ := hin
    omega

/-- Classifying one assembled slot keeps the scan invariant, advancing the
cursor. -/
theorem checkSlotStep_inv (ti : TInfo) (N cur : Nat) (st st2 : PMState) (hm : Nat → Bool)
    (hN : ti.numPieces = N) (hcur : cur < N)
    (hInv : CheckInv ti N cur st)
    (h : checkSlotStep ti st cur hm = some st2) :
    CheckInv ti N (cur + 1) st2 := by
  obtain ⟨⟨⟨hl1, hl2, hdir1, hdir2, hfree, hnd⟩, hU, hUnd⟩,
    hhl, hfc, huc, hhave, hfresh, hvirgin, hbytes⟩ := hInv
  have hvcur : st.sp cur = -1 := hvirgin cur (by omega) (by omega)
  rw [checkSlotStep] at h
  cases hml : matchLoop hm st.havePiece cur ti.numPieces with
  | none =>
    rw [hml] at h
    obtain rfl := (Option.some_inj.mp h).symm
    refine ⟨⟨⟨hl1, by simpa using hl2, ?_, ?_, ?_, ?_⟩, ?_, hUnd⟩,
      hhl, ?_, fun s hs => by have := huc s hs; omega, ?_, hfresh, ?_, hbytes⟩
    · intro p hp hq
      simp only [PMState.ps, PMState.sp] at hq ⊢
      obtain ⟨hb, hc⟩ := hdir1 p hp hq
      refine ⟨hb, ?_⟩
      simp only [PMState.sp, PMState.ps] at hc hvcur
      rw [getD_set, if_neg]
      · exact hc
      · rintro ⟨he, -⟩
        rw [← he] at hc
        omega
    · intro s hs hq
      simp only [PMState.ps, PMState.sp] at hq ⊢
      rw [getD_set] at hq ⊢
      by_cases hse : cur = s ∧ cur < st.slotToPiece.length
      · rw [if_pos hse] at hq
        omega
      · rw [if_neg hse] at hq ⊢
        exact hdir2 s hs hq
    · intro s hmem
      have hmem2 : s ∈ st.freeSlots ++ [cur] := hmem
      simp only [PMState.sp]
      rcases List.mem_append.mp hmem2 with hmm | hmm
      · obtain ⟨hb, hc⟩ := hfree s hmm
        refine ⟨hb, ?_⟩
        simp only [PMState.sp] at hc
        rw [getD_set, if_neg]
        · exact hc
        · rintro ⟨he, -⟩
          have := hfc s hmm
          omega
      · have : s = cur := by simpa using hmm
        subst this
        refine ⟨by omega, ?_⟩
        rw [getD_set, if_pos ⟨rfl, by omega⟩]
    · show (st.freeSlots ++ [cur]).Nodup
      rw [List.nodup_append]
      refine ⟨hnd, List.nodup_singleton cur, ?_⟩
      intro a ha hb
      have : a = cur := by simpa using hb
      have := hfc a ha
      omega
    · intro s hmem
      obtain ⟨hb, hc⟩ := hU s hmem
      refine ⟨hb, ?_⟩
      simp only [PMState.sp] at hc ⊢
      rw [getD_set, if_neg]
      · exact hc
      · rintro ⟨he, -⟩
        have := huc s hmem
        omega
    · intro s hmem
      rcases List.mem_append.mp hmem with hmm | hmm
      · have := hfc s hmm
        omega
      · have : s = cur := by simpa using hmm
        omega
    · intro p hp hq
      have := hhave p hp hq
      exact ⟨this.1, Nat.lt_succ_of_lt this.2⟩
    · intro s hs1 hs2
      simp only [PMState.sp]
      rw [getD_set, if_neg]
      · exact hvirgin s (by omega) hs2
      · rintro ⟨he, -⟩
        omega
  | some fp =>
    rw [hml] at h
    simp only [] at h
    obtain ⟨hfp1, hfp2⟩ := matchLoop_range hm st.havePiece cur ti.numPieces fp hml
    by_cases hdup : st.havePiece.getD fp false = true
    · rw [if_pos hdup] at h
      rw [ps_getElem? st fp (by omega)] at h
      simp only [Option.bind_eq_bind, Option.some_bind] at h
      obtain ⟨hops, hocur⟩ := hhave fp (by omega) hdup
      rw [if_pos hops] at h
      obtain rfl := (Option.some_inj.mp h).symm
      obtain ⟨hoN, hosp⟩ := hdir1 fp (by omega) hops
      have hops2 : 0 ≤ st.pieceToSlot.getD fp (-1) := hops
      have hocur2 : (st.pieceToSlot.getD fp (-1)).toNat < cur := hocur
      have hoN2 : (st.pieceToSlot.getD fp (-1)).toNat < N := hoN
      have hosp2 : st.slotToPiece.getD (st.pieceToSlot.getD fp (-1)).toNat (-1) = (fp : Int) :=
        hosp
      have hvcur2 : st.slotToPiece.getD cur (-1) = -1 := hvcur
      have hcurne : cur ≠ (st.pieceToSlot.getD fp (-1)).toNat := by omega
      refine ⟨⟨⟨by simpa using hl1, by simpa using hl2, ?_, ?_, ?_, ?_⟩, ?_, hUnd⟩,
        by simpa using hhl, ?_, fun s hs => by have := huc s hs; omega, ?_, ?_, ?_, ?_⟩
      · intro p hp hq
        simp only [PMState.ps, PMState.sp] at hq ⊢
        rw [getD_set] at hq ⊢
        rw [getD_set, getD_set, List.length_set]
        by_cases hpe : fp = p ∧ fp < st.pieceToSlot.length
        · rw [if_pos hpe] at hq ⊢
          obtain ⟨hpe1, -⟩ := hpe
          refine ⟨by simpa using hcur, ?_⟩
          rw [if_pos (show cur = ((cur : Int)).toNat ∧ cur < st.slotToPiece.length from
            ⟨by simp, by omega⟩)]
          rw [hpe1]
        · rw [if_neg hpe] at hq ⊢
          obtain ⟨hb, hc⟩ := hdir1 p hp hq
          simp only [PMState.ps, PMState.sp] at hb hc
          have hhp : st.havePiece.getD p false = true := by
            by_contra hcon
            have := hfresh p hp (by
              cases hcc : st.havePiece.getD p false
              · rfl
              · exact absurd hcc hcon)
            simp only [PMState.ps] at this
            omega
          have hplt := hhave p hp hhp
          simp only [PMState.ps] at hplt
          refine ⟨hb, ?_⟩
          rw [if_neg, if_neg]
          · exact hc
          · rintro ⟨he, -⟩
            rw [← he] at hc
            push_neg at hpe
            omega
          · rintro ⟨he, -⟩
            omega
      · intro s hs hq
        simp only [PMState.ps, PMState.sp] at hq ⊢
        rw [getD_set, getD_set, List.length_set] at hq ⊢
        rw [getD_set]
        by_cases hs1 : cur = s ∧ cur < st.slotToPiece.length
        · rw [if_pos hs1] at hq ⊢
          obtain ⟨hs1a, -⟩ := hs1
          refine ⟨by simp; omega, ?_⟩
          rw [if_pos (show fp = ((fp : Int)).toNat ∧ fp < st.pieceToSlot.length from
            ⟨by simp, by omega⟩)]
          rw [hs1a]
        · rw [if_neg hs1] at hq ⊢
          by_cases hs2 : (st.pieceToSlot.getD fp (-1)).toNat = s ∧
              (st.pieceToSlot.getD fp (-1)).toNat < st.slotToPiece.length
          · rw [if_pos hs2] at hq
            omega
          · rw [if_neg hs2] at hq ⊢
            obtain ⟨hb, hc⟩ := hdir2 s hs hq
            simp only [PMState.ps, PMState.sp] at hb hc
            refine ⟨hb, ?_⟩
            rw [if_neg]
            · exact hc
            · rintro ⟨he, -⟩
              rw [← he] at hc
              push_neg at hs2
              have : (st.pieceToSlot.getD fp (-1)).toNat = s := by omega
              exact absurd this (by
                intro hcon
                have := hs2 hcon
                omega)
      · intro s hmem
        have hmem2 : s ∈ st.freeSlots ++ [(st.pieceToSlot.getD fp (-1)).toNat] := hmem
        simp only [PMState.ps, PMState.sp]
        rcases List.mem_append.mp hmem2 with hmm | hmm
        · obtain ⟨hb, hc⟩ := hfree s hmm
          simp only [PMState.sp] at hc
          refine ⟨hb, ?_⟩
          rw [getD_set, getD_set, List.length_set, if_neg, if_neg]
          · exact hc
          · rintro ⟨he, -⟩
            rw [← he] at hc
            omega
          · rintro ⟨he, -⟩
            have := hfc s hmm
            omega
        · have hseq : s = (st.pieceToSlot.getD fp (-1)).toNat := by simpa using hmm
          subst hseq
          refine ⟨by omega, ?_⟩
          rw [getD_set, getD_set, List.length_set, if_neg,
            if_pos (show (st.pieceToSlot.getD fp (-1)).toNat =
                (st.pieceToSlot.getD fp (-1)).toNat ∧
                (st.pieceToSlot.getD fp (-1)).toNat < st.slotToPiece.length from
              ⟨rfl, by omega⟩)]
          rintro ⟨he, -⟩
          exact hcurne he
      · show (st.freeSlots ++ [(st.ps fp).toNat]).Nodup
        rw [List.nodup_append]
        refine ⟨hnd, List.nodup_singleton _, ?_⟩
        intro a ha hb
        have hab : a = (st.ps fp).toNat := by simpa using hb
        have h2 := (hfree a ha).2
        rw [hab] at h2
        simp only [PMState.sp, PMState.ps] at h2
        omega
      · intro s hmem
        obtain ⟨hb, hc⟩ := hU s hmem
        refine ⟨hb, ?_⟩
        simp only [PMState.ps, PMState.sp] at hc ⊢
        rw [getD_set, getD_set, List.length_set, if_neg, if_neg]
        · exact hc
        · rintro ⟨he, -⟩
          rw [← he] at hc
          omega
        · rintro ⟨he, -⟩
          have := huc s hmem
          omega
      · intro s hmem
        rcases List.mem_append.mp hmem with hmm | hmm
        · have := hfc s hmm
          omega
        · have hseq : s = (st.ps fp).toNat := by simpa using hmm
          simp only [PMState.ps] at hseq
          omega
      · intro p hp hq
        simp only [PMState.ps]
        rw [getD_set] at hq
        by_cases hpe : fp = p ∧ fp < st.havePiece.length
        · obtain ⟨hpe1, -⟩ := hpe
          subst hpe1
          rw [getD_set, if_pos (show fp = fp ∧ fp < st.pieceToSlot.length from
            ⟨rfl, by omega⟩)]
          exact ⟨by omega, by omega⟩
        · rw [if_neg hpe] at hq
          have h3 := hhave p hp hq
          simp only [PMState.ps] at h3
          rw [getD_set, if_neg]
          · omega
          · rintro ⟨he, -⟩
            push_neg at hpe
            omega
      · intro p hp hq
        rw [getD_set] at hq
        by_cases hpe : fp = p ∧ fp < st.havePiece.length
        · rw [if_pos hpe] at hq
          simp at hq
        · rw [if_neg hpe] at hq
          have h3 := hfresh p hp hq
          simp only [PMState.ps] at h3 ⊢
          rw [getD_set, if_neg]
          · exact h3
          · rintro ⟨he, -⟩
            rw [← he] at h3
            omega
      · intro s hs1 hs2
        simp only [PMState.ps, PMState.sp]
        rw [getD_set, getD_set, List.length_set, if_neg, if_neg]
        · exact hvirgin s (by omega) hs2
        · rintro ⟨he, -⟩
          omega
        · rintro ⟨he, -⟩
          omega
      · show st.bytesLeft = bytesLeftSpec ti N (st.havePiece.set fp true)
        rw [bytesLeftSpec_set_true_again ti N st.havePiece fp hdup]
        exact hbytes
    · have hdupf : st.havePiece.getD fp false = false := by
        cases hcc : st.havePiece.getD fp false
        · rfl
        · exact absurd hcc hdup
      rw [if_neg (by rw [hdupf]; simp)] at h
      obtain rfl := (Option.some_inj.mp h).symm
      have hfr : st.pieceToSlot.getD fp (-1) = -1 := hfresh fp (by omega) hdupf
      have hvcur2 : st.slotToPiece.getD cur (-1) = -1 := hvcur
      refine ⟨⟨⟨by simpa using hl1, by simpa using hl2, ?_, ?_, ?_, hnd⟩, ?_, hUnd⟩,
        by simpa using hhl, fun s hs => by have := hfc s hs; omega,
        fun s hs => by have := huc s hs; omega, ?_, ?_, ?_, ?_⟩
      · intro p hp hq
        simp only [PMState.ps, PMState.sp] at hq ⊢
        rw [getD_set] at hq ⊢
        rw [getD_set]
        by_cases hpe : fp = p ∧ fp < st.pieceToSlot.length
        · rw [if_pos hpe] at hq ⊢
          obtain ⟨hpe1, -⟩ := hpe
          refine ⟨by simpa using hcur, ?_⟩
          rw [if_pos (show cur = ((cur : Int)).toNat ∧ cur < st.slotToPiece.length from
            ⟨by simp, by omega⟩)]
          rw [hpe1]
        · rw [if_neg hpe] at hq ⊢
          obtain ⟨hb, hc⟩ := hdir1 p hp hq
          simp only [PMState.ps, PMState.sp] at hb hc
          have hhp : st.havePiece.getD p false = true := by
            by_contra hcon
            have := hfresh p hp (by
              cases hcc : st.havePiece.getD p false
              · rfl
              · exact absurd hcc hcon)
            simp only [PMState.ps] at this
            omega
          have hplt := hhave p hp hhp
          simp only [PMState.ps] at hplt
          refine ⟨hb, ?_⟩
          rw [if_neg]
          · exact hc
          · rintro ⟨he, -⟩
            omega
      · intro s hs hq
        simp only [PMState.ps, PMState.sp] at hq ⊢
        rw [getD_set] at hq ⊢
        rw [getD_set]
        by_cases hs1 : cur = s ∧ cur < st.slotToPiece.length
        · rw [if_pos hs1] at hq ⊢
          obtain ⟨hs1a, -⟩ := hs1
          refine ⟨by simp; omega, ?_⟩
          rw [if_pos (show fp = ((fp : Int)).toNat ∧ fp < st.pieceToSlot.length from
            ⟨by simp, by omega⟩)]
          rw [hs1a]
        · rw [if_neg hs1] at hq ⊢
          obtain ⟨hb, hc⟩ := hdir2 s hs hq
          simp only [PMState.ps, PMState.sp] at hb hc
          refine ⟨hb, ?_⟩
          rw [if_neg]
          · exact hc
          · rintro ⟨he, -⟩
            rw [← he] at hc
            omega
      · intro s hmem
        obtain ⟨hb, hc⟩ := hfree s hmem
        refine ⟨hb, ?_⟩
        simp only [PMState.ps, PMState.sp] at hc ⊢
        rw [getD_set, if_neg]
        · exact hc
        · rintro ⟨he, -⟩
          have := hfc s hmem
          omega
      · intro s hmem
        obtain ⟨hb, hc⟩ := hU s hmem
        refine ⟨hb, ?_⟩
        simp only [PMState.ps, PMState.sp] at hc ⊢
        rw [getD_set, if_neg]
        · exact hc
        · rintro ⟨he, -⟩
          have := huc s hmem
          omega
      · intro p hp hq
        simp only [PMState.ps]
        rw [getD_set] at hq
        by_cases hpe : fp = p ∧ fp < st.havePiece.length
        · obtain ⟨hpe1, -⟩ := hpe
          subst hpe1
          rw [getD_set, if_pos (show fp = fp ∧ fp < st.pieceToSlot.length from
            ⟨rfl, by omega⟩)]
          exact ⟨by omega, by omega⟩
        · rw [if_neg hpe] at hq
          have h3 := hhave p hp hq
          simp only [PMState.ps] at h3
          rw [getD_set, if_neg]
          · omega
          · rintro ⟨he, -⟩
            push_neg at hpe
            omega
      · intro p hp hq
        rw [getD_set] at hq
        by_cases hpe : fp = p ∧ fp < st.havePiece.length
        · rw [if_pos hpe] at hq
          simp at hq
        · rw [if_neg hpe] at hq
          have h3 := hfresh p hp hq
          simp only [PMState.ps] at h3 ⊢
          rw [getD_set, if_neg]
          · exact h3
          · rintro ⟨he, -⟩
            push_neg at hpe
            omega
      · intro s hs1 hs2
        simp only [PMState.ps, PMState.sp]
        rw [getD_set, if_neg]
        · exact hvirgin s (by omega) hs2
        · rintro ⟨he, -⟩
          omega
      · show st.bytesLeft - (ti.pieceSize fp : Int) =
          bytesLeftSpec ti N (st.havePiece.set fp true)
        rw [bytesLeftSpec_set_true ti N st.havePiece fp hhl (by omega) hdupf, hbytes]

/-- One slot of the resume scan keeps the scan invariant: a data-bearing slot
goes through hash classification, a slot without data is appended to
`unallocated_slots`. -/
theorem checkStep_inv (ti : TInfo) (N cur : Nat) (st st2 : PMState)
    (hasData : Nat → Bool) (hm : Nat → Nat → Bool)
    (hN : ti.numPieces = N) (hcur : cur < N)
    (hInv : CheckInv ti N cur st)
    (h : checkStep ti hasData hm st cur = some st2) :
    CheckInv ti N (cur + 1) st2 := by
  rw [checkStep] at h
  by_cases hd : hasData cur = true
  · rw [if_pos hd] at h
    exact checkSlotStep_inv ti N cur st st2 (hm cur) hN hcur hInv h
  · rw [if_neg hd] at h
    obtain rfl := (Option.some_inj.mp h).symm
    obtain ⟨⟨hT, hU, hUnd⟩, hhl, hfc, huc, hhave, hfresh, hvirgin, hbytes⟩ := hInv
    have hvcur : st.sp cur = -1 := hvirgin cur (by omega) (by omega)
    refine ⟨⟨hT, ?_, ?_⟩, hhl, fun s hs => by have := hfc s hs; omega, ?_,
      fun p hp hq => ⟨(hhave p hp hq).1, Nat.lt_succ_of_lt (hhave p hp hq).2⟩,
      hfresh, fun s hs1 hs2 => hvirgin s (by omega) hs2, hbytes⟩
    · intro s hmem
      have hmem2 : s ∈ st.unallocatedSlots ++ [cur] := hmem
      rcases List.mem_append.mp hmem2 with hmm | hmm
      · exact hU s hmm
      · have : s = cur := by simpa using hmm
        subst this
        exact ⟨by omega, hvcur⟩
    · show (st.unallocatedSlots ++ [cur]).Nodup
      rw [List.nodup_append]
      refine ⟨hUnd, List.nodup_singleton _, ?_⟩
      intro a ha hb
      have : a = cur := by simpa using hb
      have := huc a ha
      omega
    · intro s hmem
      rcases List.mem_append.mp hmem with hmm | hmm
      · have := huc s hmm
        omega
      · have : s = cur := by simpa using hmm
        omega

/-- `getD` on a replicated list with the replicated value as default is that
value, in and out of range alike. -/
theorem getD_replicate_self {α : Type} (n i : Nat) (a : α) :
    (List.replicate n a).getD i a = a := by
  rw [List.getD_eq_getElem?_getD, List.getElem?_replicate]
  split <;> simp

/-- Any prefix of the resume scan establishes the scan invariant at the number
of slots actually processed. -/
theorem checkPiecesUpTo_inv (ti : TInfo) (files : List FileEntry)
    (hasData : Nat → Bool) (hm : Nat → Nat → Bool) (N k : Nat) (st : PMState)
    (hN : ti.numPieces = N)
    (hTot : ti.totalSize = bytesLeftSpec ti N (List.replicate N false))
    (h : checkPiecesUpTo ti files hasData hm k = some st) :
    CheckInv ti N (min k N) st := by
  subst hN
  induction k generalizing st with
  | zero =>
    rw [checkPiecesUpTo] at h
    simp only [List.take_zero, List.foldlM_nil] at h
    obtain rfl := (Option.some_inj.mp h).symm
    rw [Nat.zero_min]
    refine ⟨⟨⟨by simp, by simp, ?_, ?_, ?_, by simp⟩, ?_, by simp⟩,
      by simp, ?_, ?_, ?_, ?_, ?_, hTot⟩
    · intro p hp hq
      simp only [PMState.ps] at hq
      rw [getD_replicate_self] at hq
      omega
    · intro s hs hq
      simp only [PMState.sp] at hq
      rw [getD_replicate_self] at hq
      omega
    · intro s hs
      simp at hs
    · intro s hs
      simp at hs
    · intro s hs
      simp at hs
    · intro s hs
      simp at hs
    · intro p hp hq
      rw [getD_replicate_self] at hq
      exact absurd hq (by simp)
    · intro p hp hq
      simp only [PMState.ps]
      rw [getD_replicate_self]
    · intro s hs1 hs2
      simp only [PMState.sp]
      rw [getD_replicate_self]
  | succ k ih =>
    by_cases hk : ti.numPieces ≤ k
    · have hih := ih st (by
        rw [checkPiecesUpTo, List.take_of_length_le (by simpa using hk)]
        rw [checkPiecesUpTo, List.take_of_length_le (by simp; omega)] at h
        exact h)
      rw [Nat.min_eq_right (by omega)] at hih
      rw [Nat.min_eq_right (by omega)]
      exact hih
    · push_neg at hk
      rw [checkPiecesUpTo, List.take_succ] at h
      have hget : (List.range ti.numPieces)[k]? = some k := by
        simp [List.getElem?_range, hk]
      rw [hget] at h
      simp only [Option.toList_some, List.foldlM_append, List.foldlM_cons,
        List.foldlM_nil] at h
      obtain ⟨mid, hmid, hstep⟩ : ∃ mid,
          checkPiecesUpTo ti files hasData hm k = some mid ∧
          checkStep ti hasData hm mid k = some st := by
        cases hmm : ((List.range ti.numPieces).take k).foldlM
            (checkStep ti hasData hm)
            { pieceToSlot := List.replicate ti.numPieces (-1),
              slotToPiece := List.replicate ti.numPieces (-1),
              freeSlots := [], unallocatedSlots := [],
              havePiece := List.replicate ti.numPieces false,
              bytesLeft := ti.totalSize, files := files } with
        | none =>
          rw [hmm] at h
          simp at h
        | some mid =>
          rw [hmm] at h
          simp only [Option.bind_eq_bind, Option.some_bind] at h
          refine ⟨mid, by rw [checkPiecesUpTo]; exact hmm, ?_⟩
          cases hcs : checkStep ti hasData hm mid k with
          | none =>
            rw [hcs] at h
            simp at h
          | some st3 =>
            rw [hcs] at h
            simp only [Option.bind_eq_bind, Option.some_bind, Option.pure_def] at h
            exact h
      have hCI := ih mid hmid
      rw [Nat.min_eq_left (by omega)] at hCI
      have hout := checkStep_inv ti ti.numPieces k mid st hasData hm rfl hk hCI hstep
      rw [Nat.min_eq_left (by omega)]
      exact hout

/-- `piece_manager::impl::write` keeps the structural invariant: the mapping
tables are touched only through `slot_for_piece`, the storage layer only
rewrites file bytes. -/
theorem pmWrite_inv (ti : TInfo) (N : Nat) (st : PMState) (buf : List Nat)
    (pieceIndex offset size : Nat) (st2 : PMState) (slot : Nat)
    (hN : ti.numPieces = N) (hInv : PMInv N st)
    (h : pmWrite ti st buf pieceIndex offset size = some (st2, slot)) :
    PMInv N st2 ∧ st2.havePiece = st.havePiece ∧ st2.bytesLeft = st.bytesLeft ∧
    st2.ps pieceIndex = (slot : Int) ∧ slot < N := by
  have hl1 := hInv.1.1
  have hl2 := hInv.1.2.1
  rw [pmWrite] at h
  cases hsf : slotForPiece ti st pieceIndex with
  | none =>
    rw [hsf] at h
    simp at h
  | some sr =>
    rw [hsf] at h
    simp only [Option.bind_eq_bind, Option.some_bind] at h
    have hpi : pieceIndex < N := by
      by_contra hcon
      push_neg at hcon
      rw [slotForPiece] at hsf
      have hg : checkInvariantG ti st = some () := by
        rw [checkInvariantG, if_pos ⟨by omega, by omega⟩]
      rw [hg] at hsf
      simp only [Option.bind_eq_bind, Option.some_bind] at hsf
      rw [List.getElem?_eq_none (by omega)] at hsf
      simp at hsf
    obtain ⟨sA, slotA⟩ := sr
    obtain ⟨hI, hhv, hbl, hps, hlt⟩ :=
      slotForPiece_inv ti N st pieceIndex sA slotA hN hpi hInv hsf
    cases hsw : storageWrite ti sA.files buf slotA offset size with
    | none =>
      rw [hsw] at h
      simp at h
    | some files2 =>
      rw [hsw] at h
      simp only [Option.bind_eq_bind, Option.some_bind] at h
      obtain ⟨h1, h2⟩ := Prod.mk.injEq .. ▸ Option.some_inj.mp h
      subst h2
      rw [← h1]
      exact ⟨hI, hhv, hbl, hps, hlt⟩

/-- Any single public operation keeps the structural invariant. -/
theorem applyOp_inv (ti : TInfo) (N : Nat) (st : PMState) (op : POp) (st2 : PMState)
    (hN : ti.numPieces = N) (hInv : PMInv N st)
    (h : applyOp ti st op = some st2) : PMInv N st2 := by
  cases op with
  | write buf p off sz =>
    rw [applyOp] at h
    cases hw : pmWrite ti st buf p off sz with
    | none =>
      rw [hw] at h
      simp at h
    | some pr =>
      rw [hw] at h
      obtain ⟨sA, slotA⟩ := pr
      obtain rfl := (Option.some_inj.mp h).symm
      exact (pmWrite_inv ti N st buf p off sz st2 slotA hN hInv hw).1
  | alloc n =>
    rw [applyOp] at h
    exact (allocateSlots_inv ti N st n st2 hN hInv h).1

/-- Any sequence of public operations keeps the structural invariant. -/
theorem applyOps_inv (ti : TInfo) (N : Nat) (st : PMState) (ops : List POp)
    (st2 : PMState) (hN : ti.numPieces = N) (hInv : PMInv N st)
    (h : applyOps ti st ops = some st2) : PMInv N st2 := by
  induction ops generalizing st with
  | nil =>
    rw [applyOps] at h
    simp only [List.foldlM_nil] at h
    obtain rfl := (Option.some_inj.mp h).symm
    exact hInv
  | cons op ops ih =>
    rw [applyOps, List.foldlM_cons] at h
    cases hop : applyOp ti st op with
    | none =>
      rw [hop] at h
      simp at h
    | some mid =>
      rw [hop] at h
      simp only [Option.bind_eq_bind, Option.some_bind] at h
      exact ih mid (applyOp_inv ti N st op mid hN hInv hop) (by rw [applyOps]; exact h)

/-- The last element of a cons, as the tail's last element with the head as
fallback. -/
theorem getLast?_cons_or {α : Type} (a : α) (l : List α) :
    (a :: l).getLast? = l.getLast?.or (some a) := by
  cases l with
  | nil => rfl
  | cons b bs =>
    rw [List.getLast?_cons_cons]
    cases h : (b :: bs).getLast? with
    | none => simp at h
    | some x => rfl

/-- The candidate fold of `matchLoop` keeps the last index that is not skipped
and hash-matches, falling back to the accumulator. -/
theorem foldl_matchBody_last (hv : List Bool) (cur : Nat) (hm : Nat → Bool) :
    ∀ (l : List Nat) (acc : Option Nat),
      l.foldl (fun acc i => if hv.getD i false ∧ i ≠ cur then acc
          else if hm i then some i else acc) acc =
        ((l.filter (fun i => !(hv.getD i false && !(i == cur)) && hm i)).getLast?).or acc := by
  intro l
  induction l with
  | nil =>
    intro acc
    simp
  | cons a as ih =>
    intro acc
    rw [List.foldl_cons, List.filter_cons]
    by_cases hA : hv.getD a false ∧ a ≠ cur
    · rw [if_pos hA]
      rw [ih acc]
      rw [if_neg (show ¬((!(hv.getD a false && !(a == cur)) && hm a) = true) by
        obtain ⟨h1, h2⟩ := hA
        rw [h1]
        simp [h2])]
    · rw [if_neg hA]
      by_cases hB : hm a = true
      · rw [if_pos hB, ih (some a)]
        rw [if_pos (show (!(hv.getD a false && !(a == cur)) && hm a) = true by
          rw [hB]
          cases hg : hv.getD a false
          · simp
          · simp
            by_contra hcon
            exact hA ⟨hg, fun he => hcon (by simp [he])⟩)]
        rw [getLast?_cons_or]
        cases hL : (as.filter (fun i => !(hv.getD i false && !(i == cur)) && hm i)).getLast? with
        | none => rfl
        | some x => rfl
      · rw [if_neg hB, ih acc]
        rw [if_neg (show ¬((!(hv.getD a false && !(a == cur)) && hm a) = true) by
          simp [hB])]

/-- Cell of an overlay through `getD` with default 0: positions inside the
overwritten window read `bs`, all others read the original list (out-of-range
positions and zero padding both give the default 0). -/
theorem overlay_getD (xs : List Nat) (off : Nat) (bs : List Nat) (q : Nat) :
    (overlay xs off bs).getD q 0 =
      if off ≤ q ∧ q < off + bs.length then bs.getD (q - off) 0 else xs.getD q 0 := by
  rw [List.getD_eq_getElem?_getD, overlay_getElem?]
  by_cases hnil : bs = []
  · rw [if_pos hnil, if_neg]
    · rw [List.getD_eq_getElem?_getD]
    · rintro ⟨h1, h2⟩
      rw [hnil] at h2
      simp at h2
      omega
  · rw [if_neg hnil]
    by_cases h1 : q < off
    · rw [if_pos h1, if_neg (by omega), padTo_getElem?]
      by_cases h2 : q < xs.length
      · rw [if_pos h2, List.getD_eq_getElem?_getD]
      · rw [if_neg h2, if_pos (by omega)]
        rw [List.getD_eq_getElem?_getD, List.getElem?_eq_none (by omega)]
        rfl
    · rw [if_neg h1]
      by_cases h2 : q < off + bs.length
      · rw [if_pos h2, if_pos ⟨by omega, h2⟩, List.getD_eq_getElem?_getD]
      · rw [if_neg h2, if_neg (by omega), List.getD_eq_getElem?_getD]

/-- A successful read walk leaves every buffer cell below the write cursor
untouched. -/
theorem readWalk_getD_lt (files : List FileEntry) (start left : Nat) (buf : List Nat)
    (pos : Nat) (b : List Nat) (h : readWalk files start left buf pos = some b) :
    ∀ q, q < pos → b.getD q 0 = buf.getD q 0 := by
  induction files generalizing start left buf pos b with
  | nil => simp [readWalk] at h
  | cons f fs ih =>
    intro q hq
    rw [readWalk] at h
    by_cases h1 : start < f.declared
    · rw [if_pos h1] at h
      by_cases h0 : left = 0
      · rw [if_pos h0] at h
        obtain rfl := (Option.some_inj.mp h).symm
        rfl
      · rw [if_neg h0] at h
        by_cases h2 : left ≤ f.declared - start
        · rw [if_pos h2] at h
          obtain rfl := (Option.some_inj.mp h).symm
          rw [overlay_getD, if_neg (by omega)]
        · rw [if_neg h2] at h
          have := ih 0 _ _ _ _ h q (by omega)
          rw [this, overlay_getD, if_neg (by omega)]
    · rw [if_neg h1] at h
      exact ih _ _ _ _ _ h q hq

/-- Stale bytes of a short read: a position planned by the walk whose disk byte
is missing keeps the previous buffer byte (the source advances the cursor by
the planned count, not the obtained count, and never clears the hole). -/
theorem readWalk_stale (files : List FileEntry) (start left : Nat) (buf : List Nat)
    (pos : Nat) (b : List Nat) (h : readWalk files start left buf pos = some b) :
    ∀ j, j < left → diskByte files (start + j) = none →
      b.getD (pos + j) 0 = buf.getD (pos + j) 0 := by
  induction files generalizing start left buf pos b with
  | nil => simp [readWalk] at h
  | cons f fs ih =>
    intro j hj hnone
    rw [readWalk] at h
    rw [diskByte] at hnone
    by_cases h1 : start < f.declared
    · rw [if_pos h1] at h
      rw [if_neg (show ¬left = 0 by omega)] at h
      by_cases h2 : left ≤ f.declared - start
      · rw [if_pos h2] at h
        obtain rfl := (Option.some_inj.mp h).symm
        rw [if_pos (show start + j < f.declared by omega)] at hnone
        have hlen : f.content.length ≤ start + j := by
          by_contra hcon
          rw [List.getElem?_eq_getElem (by omega)] at hnone
          simp at hnone
        rw [overlay_getD, if_neg]
        rintro ⟨-, hlt⟩
        have hwlen : ((f.content.drop start).take
            (min (min left (f.declared - start)) (f.content.length - start))).length ≤
            f.content.length - start := by
          simp
        omega
      · rw [if_neg h2] at h
        by_cases h3 : j < f.declared - start
        · rw [if_pos (show start + j < f.declared by omega)] at hnone
          have hlen : f.content.length ≤ start + j := by
            by_contra hcon
            rw [List.getElem?_eq_getElem (by omega)] at hnone
            simp at hnone
          have hfr := readWalk_getD_lt fs 0 _ _ _ _ h (pos + j)
            (by
              have : min left (f.declared - start) = f.declared - start := by omega
              omega)
          rw [hfr, overlay_getD, if_neg]
          rintro ⟨-, hlt⟩
          have hwlen : ((f.content.drop start).take
              (min (min left (f.declared - start)) (f.content.length - start))).length ≤
              f.content.length - start := by
            rw [List.length_take, List.length_drop]
            omega
          omega
        · rw [if_neg (show ¬start + j < f.declared by omega)] at hnone
          have hplan : min left (f.declared - start) = f.declared - start := by omega
          have hstep := ih 0 (left - min left (f.declared - start)) _ _ _ h
            (j - (f.declared - start)) (by omega)
            (by
              have : start + j - f.declared = 0 + (j - (f.declared - start)) := by omega
              rw [← this]
              exact hnone)
          have he1 : pos + min left (f.declared - start) + (j - (f.declared - start)) =
              pos + j := by omega
          rw [he1] at hstep
          rw [hstep, overlay_getD, if_neg]
          rintro ⟨-, hlt⟩
          have hwlen : ((f.content.drop start).take
              (min (min left (f.declared - start)) (f.content.length - start))).length ≤
              min left (f.declared - start) := by
            rw [List.length_take, List.length_drop]
            omega
          omega
    · rw [if_neg h1] at h
      rw [if_neg (show ¬start + j < f.declared by omega)] at hnone
      have := ih (start - f.declared) left buf pos b h j hj
        (by
          have : start + j - f.declared = start - f.declared + j := by omega
          rw [← this]
          exact hnone)
      exact this

/-- Neither public operation changes `have_piece` or `bytes_left`. -/
theorem applyOp_frame (ti : TInfo) (N : Nat) (st : PMState) (op : POp) (st2 : PMState)
    (hN : ti.numPieces = N) (hInv : PMInv N st)
    (h : applyOp ti st op = some st2) :
    st2.havePiece = st.havePiece ∧ st2.bytesLeft = st.bytesLeft := by
  cases op with
  | write buf p off sz =>
    rw [applyOp] at h
    cases hw : pmWrite ti st buf p off sz with
    | none =>
      rw [hw] at h
      simp at h
    | some pr =>
      rw [hw] at h
      obtain ⟨sA, slotA⟩ := pr
      obtain rfl := (Option.some_inj.mp h).symm
      obtain ⟨-, h1, h2, -, -⟩ := pmWrite_inv ti N st buf p off sz st2 slotA hN hInv hw
      exact ⟨h1, h2⟩
  | alloc n =>
    rw [applyOp] at h
    obtain ⟨-, -, h1, h2⟩ := allocateSlots_inv ti N st n st2 hN hInv h
    exact ⟨h1, h2⟩

/-- A sequence of public operations changes neither `have_piece` nor
`bytes_left`. -/
theorem applyOps_frame (ti : TInfo) (N : Nat) (st : PMState) (ops : List POp)
    (st2 : PMState) (hN : ti.numPieces = N) (hInv : PMInv N st)
    (h : applyOps ti st ops = some st2) :
    st2.havePiece = st.havePiece ∧ st2.bytesLeft = st.bytesLeft := by
  induction ops generalizing st with
  | nil =>
    rw [applyOps] at h
    simp only [List.foldlM_nil] at h
    obtain rfl := (Option.some_inj.mp h).symm
    exact ⟨rfl, rfl⟩
  | cons op ops ih =>
    rw [applyOps, List.foldlM_cons] at h
    cases hop : applyOp ti st op with
    | none =>
      rw [hop] at h
      simp at h
    | some mid =>
      rw [hop] at h
      simp only [Option.bind_eq_bind, Option.some_bind] at h
      obtain ⟨e1, e2⟩ := applyOp_frame ti N st op mid hN hInv hop
      obtain ⟨f1, f2⟩ := ih mid (applyOp_inv ti N st op mid hN hInv hop)
        (by rw [applyOps]; exact h)
      exact ⟨by rw [f1, e1], by rw [f2, e2]⟩

/-- C4, counterexample: a slot buffer hash-matching both piece 1 and piece 2
records piece 2, the last match, not the first match that the spec announces
(storage.cpp lines 611 to 622 have no break). -/
theorem c4_counterexample :
    matchLoop (fun i => decide (i = 1 ∨ i = 2)) [false, false, false] 0 3 = some 2 ∧
      matchLoop (fun i => decide (i = 1 ∨ i = 2)) [false, false, false] 0 3 ≠ some 1 := by
  constructor
  · rfl
  · decide

/-- C4: candidate piece indices run in ascending order from `current_slot`,
skipping pieces already marked present except `current_slot` itself, but the
recorded piece is the LAST candidate whose SHA-1 matches, not the first: the
loop of storage.cpp lines 611 to 622 has no break, so each later match
overwrites `found_piece`. -/
theorem c4_last_match_wins (hm : Nat → Bool) (hv : List Bool) (cur n : Nat) :
    matchLoop hm hv cur n =
      ((List.range' cur (n - cur)).filter
        (fun i => !(hv.getD i false && !(i == cur)) && hm i)).getLast? := by
  rw [matchLoop, foldl_matchBody_last]
  rw [Option.or_none]

/-- C7: a slot whose assembled buffer hash-matches an already-found piece
demotes that piece's earlier slot — `slot_to_piece` of the old slot becomes -2
and the slot is appended to `free_slots` — records the scanned slot for the
piece, and leaves `bytes_left` unchanged; a first-time match records the slot
the same way, touches no free slot, and decrements `bytes_left` by the piece
size (storage.cpp lines 624 to 640). -/
theorem c7_duplicate_demotes_earlier_slot (ti : TInfo) (st st2 : PMState)
    (cur fp : Nat) (hm : Nat → Bool)
    (hml : matchLoop hm st.havePiece cur ti.numPieces = some fp)
    (h : checkSlotStep ti st cur hm = some st2) :
    (st.havePiece.getD fp false = true →
      0 ≤ st.pieceToSlot.getD fp (-1) ∧
      st2.slotToPiece = (st.slotToPiece.set (st.pieceToSlot.getD fp (-1)).toNat
        (-2)).set cur (fp : Int) ∧
      st2.freeSlots = st.freeSlots ++ [(st.pieceToSlot.getD fp (-1)).toNat] ∧
      st2.pieceToSlot = st.pieceToSlot.set fp (cur : Int) ∧
      st2.bytesLeft = st.bytesLeft) ∧
    (st.havePiece.getD fp false = false →
      st2.slotToPiece = st.slotToPiece.set cur (fp : Int) ∧
      st2.freeSlots = st.freeSlots ∧
      st2.pieceToSlot = st.pieceToSlot.set fp (cur : Int) ∧
      st2.bytesLeft = st.bytesLeft - (ti.pieceSize fp : Int)) := by
  rw [checkSlotStep, hml] at h
  simp only [] at h
  constructor
  · intro hdup
    rw [if_pos hdup] at h
    cases hfp : st.pieceToSlot[fp]? with
    | none =>
      rw [hfp] at h
      simp at h
    | some old =>
      rw [hfp] at h
      simp only [Option.bind_eq_bind, Option.some_bind] at h
      by_cases hop : 0 ≤ old
      · rw [if_pos hop] at h
        obtain rfl := (Option.some_inj.mp h).symm
        have hgd : st.pieceToSlot.getD fp (-1) = old := by
          rw [List.getD_eq_getElem?_getD, hfp]
          rfl
        rw [hgd]
        exact ⟨hop, rfl, rfl, rfl, rfl⟩
      · rw [if_neg hop] at h
        simp at h
  · intro hfr
    rw [if_neg (by rw [hfr]; simp)] at h
    obtain rfl := (Option.some_inj.mp h).symm
    exact ⟨rfl, rfl, rfl, rfl⟩

/-- C7 witness: the concrete one-piece scan step at `stC7`. -/
theorem c7_witness :
    stC7x.slotToPiece = stC7.slotToPiece.set 0 ((0 : Nat) : Int) ∧
    stC7x.freeSlots = stC7.freeSlots ∧
    stC7x.pieceToSlot = stC7.pieceToSlot.set 0 ((0 : Nat) : Int) ∧
    stC7x.bytesLeft = stC7.bytesLeft - ((⟨1, 1, 1, 1⟩ : TInfo).pieceSize 0 : Int) :=
  (c7_duplicate_demotes_earlier_slot ⟨1, 1, 1, 1⟩ stC7 stC7x 0 0 (fun _ => true)
    (by decide) (by decide)).2 (by decide)

/-- C2: after any prefix of the resume scan and any sequence of public
operations, the mapping is inverse-consistent: `piece_to_slot[p] = s ≥ 0`
implies `slot_to_piece[s] = p`. -/
theorem c2_inverse_consistent (ti : TInfo) (files : List FileEntry)
    (hasData : Nat → Bool) (hm : Nat → Nat → Bool) (k : Nat) (ops : List POp)
    (st1 st2 : PMState)
    (hTot : ti.totalSize = bytesLeftSpec ti ti.numPieces
      (List.replicate ti.numPieces false))
    (hchk : checkPiecesUpTo ti files hasData hm k = some st1)
    (hops : applyOps ti st1 ops = some st2) :
    InverseConsistent st2 :=
  inv_inverseConsistent ti.numPieces st2
    (applyOps_inv ti ti.numPieces st1 ops st2 rfl
      (checkPiecesUpTo_inv ti files hasData hm ti.numPieces k st1 rfl hTot hchk).1 hops)

/-- C2 witness: the concrete one-piece scan, instantiated at piece 0. -/
theorem c2_witness :
    stWF.sp (stWF.ps 0).toNat = ((0 : Nat) : Int) :=
  c2_inverse_consistent ⟨1, 1, 1, 1⟩ [] (fun _ => true) (fun _ _ => true) 1 [] stWF stWF
    (by decide) (by decide) (by decide) 0 (by decide) (by decide)

/-- C8: starting from an all-false `pieces` vector, after any prefix of the
resume scan and any sequence of public operations, `bytes_left` equals the sum
of `piece_size(p)` over the pieces not marked have. -/
theorem c8_bytes_left_spec (ti : TInfo) (files : List FileEntry)
    (hasData : Nat → Bool) (hm : Nat → Nat → Bool) (k : Nat) (ops : List POp)
    (st1 st2 : PMState)
    (hTot : ti.totalSize = bytesLeftSpec ti ti.numPieces
      (List.replicate ti.numPieces false))
    (hchk : checkPiecesUpTo ti files hasData hm k = some st1)
    (hops : applyOps ti st1 ops = some st2) :
    st2.bytesLeft = bytesLeftSpec ti ti.numPieces st2.havePiece := by
  have hCI := checkPiecesUpTo_inv ti files hasData hm ti.numPieces k st1 rfl hTot hchk
  obtain ⟨hf, hb⟩ := applyOps_frame ti ti.numPieces st1 ops st2 rfl hCI.1 hops
  rw [hb, hf]
  exact hCI.2.2.2.2.2.2.2

/-- C8 witness: the concrete one-piece scan. -/
theorem c8_witness :
    stWF.bytesLeft = bytesLeftSpec ⟨1, 1, 1, 1⟩ (⟨1, 1, 1, 1⟩ : TInfo).numPieces
      stWF.havePiece :=
  c8_bytes_left_spec ⟨1, 1, 1, 1⟩ [] (fun _ => true) (fun _ _ => true) 1 [] stWF stWF
    (by decide) (by decide) (by decide)

/-- C10: the `piece_manager::impl` constructor leaves both mapping tables
empty, so before `check_pieces` has run, `read`, `write` and `allocate_slots`
all index a zero-length table: in the embedding each returns `none` on the
constructor state. -/
theorem c10_operations_need_check_pieces (ti : TInfo) (files : List FileEntry)
    (hN : 0 < ti.numPieces) :
    (initState files).pieceToSlot = [] ∧ (initState files).slotToPiece = [] ∧
    (∀ buf p off sz, pmRead ti (initState files) buf p off sz = none) ∧
    (∀ buf p off sz, pmWrite ti (initState files) buf p off sz = none) ∧
    (∀ n, allocateSlots ti (initState files) n = none) := by
  have hg : checkInvariantG ti (initState files) = none := by
    rw [checkInvariantG, if_neg]
    rintro ⟨h1, -⟩
    rw [initState] at h1
    simp at h1
    omega
  refine ⟨rfl, rfl, ?_, ?_, ?_⟩
  · intro buf p off sz
    rw [pmRead]
    have hp : (initState files).pieceToSlot[p]? = none := by
      rw [initState]
      simp
    rw [hp]
    rfl
  · intro buf p off sz
    have hsf : slotForPiece ti (initState files) p = none := by
      rw [slotForPiece, hg]
      rfl
    rw [pmWrite, hsf]
    rfl
  · intro n
    rw [allocateSlots, hg]
    rfl

/-- C10 witness: reading piece 0 on the constructor state fails. -/
theorem c10_witness :
    0 < (⟨1, 1, 1, 1⟩ : TInfo).numPieces ∧
      pmRead ⟨1, 1, 1, 1⟩ (initState []) [] 0 0 0 = none :=
  ⟨by decide,
   (c10_operations_need_check_pieces ⟨1, 1, 1, 1⟩ [] (by decide)).2.2.1 [] 0 0 0⟩

/-- C9: a successful `storage::write` to files that are all present at their
declared sizes changes no byte outside the written span: the destination is
opened read+write without truncation, and the walk overwrites exactly the
clamped range. -/
theorem c9_write_preserves_outside_span (ti : TInfo) (files : List FileEntry)
    (buf : List Nat) (slot offset size : Nat) (files2 : List FileEntry)
    (hcomp : ∀ f ∈ files, f.content.length = f.declared)
    (h : storageWrite ti files buf slot offset size = some files2) :
    ∀ v, (v < slot * ti.pieceLength + offset ∨
        slot * ti.pieceLength + offset +
          (buf.take (min size (ti.pieceSize slot - offset))).length ≤ v) →
      diskByte files2 v = diskByte files v := by
  intro v hv
  rw [storageWrite] at h
  exact writeWalk_frame files (slot * ti.pieceLength + offset)
    (buf.take (min size (ti.pieceSize slot - offset))) files2 h hcomp v hv

/-- C9 witness: a one-byte write at offset 1 leaves byte 0 unchanged. -/
theorem c9_witness :
    diskByte [⟨4, [1, 9, 3, 4]⟩] 0 = diskByte [⟨4, [1, 2, 3, 4]⟩] 0 :=
  c9_write_preserves_outside_span ⟨4, 1, 4, 4⟩ [⟨4, [1, 2, 3, 4]⟩] [9] 0 1 1
    [⟨4, [1, 9, 3, 4]⟩]
    (by
      intro f hf
      rw [List.mem_singleton] at hf
      subst hf
      rfl)
    (by decide) 0 (Or.inl (by decide))

/-- C5, counterexample: a file declared at 4 bytes holding only 2 makes
`storage::read` return 4, the clamped request, although only 2 bytes were
obtained (the stale tail of the buffer shows where reading stopped). -/
theorem c5_counterexample :
    storageRead ⟨4, 1, 4, 4⟩ [⟨4, [1, 2]⟩] [7, 7, 7, 7] 0 0 4 =
      some (4, [1, 2, 7, 7]) ∧ (4 : Nat) ≠ 2 := by
  constructor
  · rfl
  · decide

/-- C5: corrected — the value returned by `storage::read` is the request
clamped to the slot size, computed before the walk and never corrected by the
bytes actually obtained; the true half of the claim stands: a planned byte
missing on disk leaves the corresponding buffer cell untouched rather than
zero-filled. -/
theorem c5_read_returns_clamped_count (ti : TInfo) (files : List FileEntry)
    (buf : List Nat) (slot offset size : Nat) (r : Nat) (b : List Nat)
    (h : storageRead ti files buf slot offset size = some (r, b)) :
    r = min size (ti.pieceSize slot - offset) ∧
    (∀ j, j < r → diskByte files (slot * ti.pieceLength + offset + j) = none →
      b.getD j 0 = buf.getD j 0) := by
  rw [storageRead] at h
  cases hrw : readWalk files (slot * ti.pieceLength + offset)
      (min size (ti.pieceSize slot - offset)) buf 0 with
  | none =>
    rw [hrw] at h
    simp at h
  | some bb =>
    rw [hrw] at h
    have hpair : (min size (ti.pieceSize slot - offset), bb) = (r, b) :=
      Option.some_inj.mp h
    obtain ⟨h1, h2⟩ := Prod.mk.injEq .. ▸ hpair
    subst h2
    refine ⟨h1.symm, ?_⟩
    intro j hj hnone
    have hres := readWalk_stale files (slot * ti.pieceLength + offset)
      (min size (ti.pieceSize slot - offset)) buf 0 bb hrw j (by omega) hnone
    rw [Nat.zero_add] at hres
    exact hres

/-- C5 witness: the short read of `c5_counterexample`, checked against the
corrected statement. -/
theorem c5_witness :
    (4 : Nat) = min 4 ((⟨4, 1, 4, 4⟩ : TInfo).pieceSize 0 - 0) ∧
      ([1, 2, 7, 7] : List Nat).getD 2 0 = ([7, 7, 7, 7] : List Nat).getD 2 0 :=
  ⟨(c5_read_returns_clamped_count ⟨4, 1, 4, 4⟩ [⟨4, [1, 2]⟩] [7, 7, 7, 7] 0 0 4 4
      [1, 2, 7, 7] (by decide)).1,
   (c5_read_returns_clamped_count ⟨4, 1, 4, 4⟩ [⟨4, [1, 2]⟩] [7, 7, 7, 7] 0 0 4 4
      [1, 2, 7, 7] (by decide)).2 2 (by decide) (by decide)⟩

/-- C6, counterexample: draining slot 1 (whose index is held by piece 1 living
in slot 0) writes the bytes of slot 0 into slot 1 — bytes 4 to 7 of the
resulting file repeat bytes 0 to 3 — not `piece_size` zero bytes, so the
displaced content is copied, not discarded. -/
theorem c6_counterexample :
    ((checkPiecesUpTo tiSmall filesSmall (fun s => decide (s ≠ 1))
        (fun s i => decide (s = 0 ∧ i = 1)) 3).bind
      (fun st1 => allocateSlots tiSmall st1 1)).map (fun st => st.files) =
      some [⟨10, [10, 11, 12, 13, 10, 11, 12, 13, 18, 19]⟩] ∧
      ([10, 11, 12, 13] : List Nat) ≠ List.replicate 4 0 := by
  constructor
  · rfl
  · decide

/-- C6: corrected — in the relocation branch of `allocate_slots` the indices
are rebound exactly as claimed (`piece_to_slot[pos] = pos`,
`slot_to_piece[pos] = pos`, source slot freed), but the bytes physically
written into slot `pos` are the SOURCE SLOT'S CONTENT, read into the shared
buffer just before the write; nothing is zeroed or discarded. -/
theorem c6_relocation_copies_content (ti : TInfo) (st : PMState) (buf : List Nat)
    (pos q : Nat) (st2 : PMState) (buf2 : List Nat) (w : List Nat)
    (hpos : pos < st.pieceToSlot.length)
    (hq : st.pieceToSlot.getD pos (-1) = ((q : Nat) : Int))
    (hsz : ti.pieceSize pos ≤ ti.pieceSize q)
    (h0 : 0 < ti.pieceSize pos)
    (hwl : w.length = ti.pieceSize pos)
    (hbytes : ∀ j, j < ti.pieceSize pos →
      diskByte st.files (q * ti.pieceLength + j) = w[j]?)
    (h : allocStep ti st buf pos = some (st2, buf2)) :
    st2.pieceToSlot = st.pieceToSlot.set pos ((pos : Nat) : Int) ∧
    st2.slotToPiece = (st.slotToPiece.set pos ((pos : Nat) : Int)).set q (-2) ∧
    st2.freeSlots = st.freeSlots ++ [q] ∧
    buf2 = overlay buf 0 w ∧
    (∀ j, j < ti.pieceSize pos →
      diskByte st2.files (pos * ti.pieceLength + j) =
        diskByte st.files (q * ti.pieceLength + j)) := by
  have hps : st.ps pos = ((q : Nat) : Int) := hq
  rw [allocStep, ps_getElem? st pos hpos, hps] at h
  simp only [Option.bind_eq_bind, Option.some_bind] at h
  rw [if_neg (by omega), if_pos (by omega)] at h
  simp only [Int.toNat_natCast] at h
  have hleft : min (ti.pieceSize pos) (ti.pieceSize q - 0) = ti.pieceSize pos := by
    omega
  have hloc : q * ti.pieceLength + 0 < totalDeclared st.files := by
    have hb0 := hbytes 0 h0
    rw [Nat.add_zero] at hb0
    rw [List.getElem?_eq_getElem (by omega)] at hb0
    have := diskByte_lt_totalDeclared st.files (q * ti.pieceLength) _ hb0
    omega
  have hrc : readWalk st.files (q * ti.pieceLength + 0)
      (min (ti.pieceSize pos) (ti.pieceSize q - 0)) buf 0 =
      some (overlay buf 0 w) := by
    rw [hleft]
    exact readWalk_content st.files (q * ti.pieceLength + 0) (ti.pieceSize pos)
      buf 0 w hwl (by omega)
      (by
        intro j hjl
        have := hbytes j hjl
        rw [show q * ti.pieceLength + 0 + j = q * ti.pieceLength + j by omega]
        exact this)
  rw [storageRead] at h
  rw [hrc] at h
  simp only [Option.map_some', Option.bind_eq_bind, Option.some_bind] at h
  rw [storageWrite] at h
  have htake : (overlay buf 0 w).take
      (min (ti.pieceSize pos) (ti.pieceSize pos - 0)) = w := by
    rw [show min (ti.pieceSize pos) (ti.pieceSize pos - 0) = w.length by omega]
    have := overlay_slice buf 0 w
    rw [List.drop_zero] at this
    exact this
  rw [htake] at h
  cases hww : writeWalk st.files (pos * ti.pieceLength + 0) w with
  | none =>
    rw [hww] at h
    simp at h
  | some fl2 =>
    rw [hww] at h
    simp only [Option.bind_eq_bind, Option.some_bind] at h
    have hpair := Option.some_inj.mp h
    obtain ⟨hst, hbuf⟩ := Prod.mk.injEq .. ▸ hpair
    subst hst
    subst hbuf
    refine ⟨rfl, rfl, rfl, rfl, ?_⟩
    intro j hjl
    have hcont := writeWalk_content st.files (pos * ti.pieceLength + 0) w fl2 hww j
      (by omega)
    rw [show pos * ti.pieceLength + 0 + j = pos * ti.pieceLength + j by omega] at hcont
    rw [hcont]
    exact (hbytes j hjl).symm

/-- C6 witness: the concrete relocation of `tiC6`, instantiated at byte 0 of
the drained slot. -/
theorem c6_witness :
    diskByte [⟨4, [22, 23, 22, 23]⟩] (0 * tiC6.pieceLength + 0) =
      diskByte [⟨4, [20, 21, 22, 23]⟩] (1 * tiC6.pieceLength + 0) :=
  (c6_relocation_copies_content tiC6
    ⟨[1, -1], [5, 6], [], [], [], 0, [⟨4, [20, 21, 22, 23]⟩]⟩ [0, 0] 0 1
    ⟨[0, -1], [0, -2], [1], [], [], 0, [⟨4, [22, 23, 22, 23]⟩]⟩ [22, 23] [22, 23]
    (by decide) (by decide) (by decide) (by decide) (by decide) (by decide)
    (by decide)).2.2.2.2 0 (by decide)

/-- C1: refuted by a concrete run — after a resume scan that leaves
`free_slots = [1, 2]` and piece 0 unplaced, `write` on piece 0 walks into the
last-slot special case with more than one free slot, re-reads the same
`end() - 1`, and hands out slot `N - 1 = 2`; the subsequent swap leaves
`slot_to_piece[2] = 1`, neither negative nor `N - 1`. -/
theorem c1_last_slot_given_to_other_piece :
    ((checkPiecesUpTo tiSmall filesSmall (fun _ => true)
        (fun s i => decide (s = 0 ∧ i = 1)) 3).bind
      (fun st1 => pmWrite tiSmall st1 (List.replicate 4 5) 0 0 4)).map
      (fun pr => pr.1.sp (tiSmall.numPieces - 1)) = some 1 ∧
      ((1 : Int) ≠ ((tiSmall.numPieces - 1 : Nat) : Int) ∧ ¬(1 : Int) < 0) := by
  constructor
  · rfl
  · decide

/-- C3: refuted by a concrete run — piece 0 (full size 4) gets placed on the
short last slot 2, `write` silently clamps to 2 bytes, and the read back
returns count 2 with the bytes `[5, 6, 0, 0]` instead of 4 with
`[5, 6, 7, 8]`: the round trip fails although `offset + len ≤ piece_size(p)`
held and the write reported success. -/
theorem c3_roundtrip_truncated_on_short_slot :
    ((checkPiecesUpTo tiSmall filesSmall (fun s => decide (s ≠ 0))
        (fun _ _ => false) 3).bind
      (fun st1 => (pmWrite tiSmall st1 [5, 6, 7, 8] 0 0 4).bind
        (fun pr => pmRead tiSmall pr.1 (List.replicate 4 0) 0 0 4))) =
      some (2, [5, 6, 0, 0]) ∧
      ((2 : Nat), ([5, 6, 0, 0] : List Nat)) ≠ ((4 : Nat), ([5, 6, 7, 8] : List Nat)) := by
  constructor
  · rfl
  · decide
